import Mathlib

/-!
HolyPackager: the HCPK container, its packer and its self-extracting stub.

A shallow embedding of `src/packager.c` (the packer) and `src/hcpk_stub.c`
(the self-extracting stub) together with theorems about the container format.

Modelling conventions
* A byte is a `Fin 256`; a file, a buffer and a path are lists of bytes.
* A `uint32_t` is a natural number reduced modulo `2^32` wherever the C code
  converts to that type.
* `fwrite(&value, 4, 1, f)` and `fread(&v, 4, 1, f)` move the object
  representation of a `uint32_t`; the embedding fixes a little-endian host, the
  byte order the stub documents in the name `read_u32_le`.
* A `FILE*` opened for reading is the list of its bytes plus a cursor.
* `malloc` is taken to return a buffer of the size it is asked for (for size 0 a
  non-null pointer to no bytes). In a `Run` a buffer is the list of the bytes
  `fread` stored in it. The sizes the stub asks for are `hc_buf_capacity`,
  `name_capacity` and `res_buf_capacity`; `hc_buf_capacity` is `hc_size + 1` in
  `uint32_t` and wraps to 0 at `hc_size = 0xFFFFFFFF`, where `fread` then writes
  outside `hc_buf` (`hc_buf_overrun`). `extract_package` and `stub_main` give the
  run of the C program on every input without that overrun;
  `extract_package_defined` and `stub_main_defined` are `none` on the others.
* Whether `fopen(path, "wb")` succeeds is decided by the environment
  (`Env.canOpen`); `fwrite` to an opened file writes all its bytes.
* Console output and timing are not modelled, except that the stub's
  `suspicious name_len` diagnostic is kept as a flag of the run.
* A run of the stub records the files it writes in order; which file a path
  names is a parameter (`resolve`) of `file_after`, the content a file has after
  those writes.
* The packer sees the file system through `PackEnv`: the content of each file it
  can open for reading and which paths it can open for writing.
-/

namespace HolyPackager

/-! ## Bytes -/

abbrev Byte := Fin 256

abbrev Bytes := List Byte

/-- The low eight bits of a natural number, as one byte. -/
def byte (n : Nat) : Byte := ⟨n % 256, Nat.mod_lt n (by decide)⟩

/-- The macro `MAGIC`, the four characters `HCPK`. -/
def MAGIC : Bytes := [72, 67, 80, 75]

/-- The macro `VERSION` of the packer. -/
def VERSION : Nat := 1

/-- The macro `MARKER` of the stub, the nine characters `HCPK_EOF:`. -/
def MARKER : Bytes := [72, 67, 80, 75, 95, 69, 79, 70, 58]

/-- The characters of the C string held in a buffer: the bytes before the first
NUL. -/
def cstr (str : Bytes) : Bytes := str.takeWhile (fun b => b != 0)

/-- The C library `strlen`. -/
def strlen (str : Bytes) : Nat := (cstr str).length

/-! ## The packer, `src/packager.c` -/

/-- The struct `Resource` of the packer. -/
structure Resource where
  name : Bytes
  size : Nat
  data : Bytes
deriving DecidableEq, Repr

/-- The size `read_file` stores through `out_size`: `ftell` converted to
`uint32_t`. -/
def read_file_size (content : Bytes) : Nat := content.length % 2 ^ 32

/-- The buffer `read_file` returns: `fread` of `*out_size` bytes from the start
of the file. -/
def read_file (content : Bytes) : Bytes := content.take (read_file_size content)

/-- The C function `write_uint32`: the four bytes of the object representation of
the `uint32_t` argument. -/
def write_uint32 (value : Nat) : Bytes :=
  let v := value % 2 ^ 32
  [byte v, byte (v / 256), byte (v / 65536), byte (v / 16777216)]

/-- One iteration of the resource loop of the packer (lines 80-87). -/
def write_resource (r : Resource) : Bytes :=
  let name_len := strlen r.name % 2 ^ 32
  write_uint32 name_len ++ r.name.take name_len ++
    write_uint32 r.size ++ r.data.take r.size

/-- The resource loop of the packer, in input order. -/
def write_resources : List Resource → Bytes
  | [] => []
  | r :: rest => write_resource r ++ write_resources rest

/-- The bytes the packer writes to the output file (lines 72-87), given the
payload buffer and the resource table built by lines 52-63. -/
def write_package (hc_size : Nat) (hc_data : Bytes) (resources : List Resource) : Bytes :=
  MAGIC ++ write_uint32 VERSION ++ write_uint32 hc_size ++ hc_data.take hc_size ++
    write_uint32 resources.length ++ write_resources resources

/-- The resource table entry lines 59-61 build from a path argument and the
content of the file at that path. -/
def load_resource (arg : Bytes × Bytes) : Resource :=
  { name := arg.1, size := read_file_size arg.2, data := read_file arg.2 }

/-- The packer on a payload file content and a list of (resource argument, file
content) pairs, all files being readable. -/
def pack (P : Bytes) (rs : List (Bytes × Bytes)) : Bytes :=
  write_package (read_file_size P) (read_file P) (rs.map load_resource)

/-! ## The self-extracting stub, `src/hcpk_stub.c` -/

/-- What the stub is given by its environment: the output directory argument and
which paths `fopen(path, "wb")` can open. -/
structure Env where
  out_dir : Bytes
  canOpen : Bytes → Bool

/-- The fatal exits of the stub, one for each `return 1` and each `perror_exit`
reached on input data. -/
inductive Fatal where
  | markerNotFound
  | readMagic
  | invalidMagic
  | read_u32_le
  | readHcCode
  | createExtractedHc
  | readName
  | readResData
deriving DecidableEq, Repr

/-- The fatal exits taken because a read came back short. -/
def Fatal.truncatedInput : Fatal → Bool
  | .readMagic => true
  | .read_u32_le => true
  | .readHcCode => true
  | .readName => true
  | .readResData => true
  | .markerNotFound => false
  | .invalidMagic => false
  | .createExtractedHc => false

/-- The bytes `fread(buf, 1, n, me)` stores when the cursor of `me` is at `pos`:
at most `n`, fewer at end of file. -/
def fread (me : Bytes) (pos n : Nat) : Bytes := (me.drop pos).take n

/-- The C function `read_u32_le` with the cursor at `pos`: the value, or the
`perror_exit` when the four bytes are not all there. -/
def read_u32_le (me : Bytes) (pos : Nat) : Except Fatal Nat :=
  match fread me pos 4 with
  | [b0, b1, b2, b3] => .ok (b0.val + 256 * b1.val + 65536 * b2.val + 16777216 * b3.val)
  | _ => .error .read_u32_le

/-- The string `snprintf(buf, size, "%s/%s", dir, name)` leaves in `buf`. -/
def snprintf_path (size : Nat) (dir name : Bytes) : Bytes :=
  (cstr dir ++ [47] ++ cstr name).take (size - 1)

/-- The characters of the literal `extracted.hc`. -/
def extracted_hc : Bytes := [101, 120, 116, 114, 97, 99, 116, 101, 100, 46, 104, 99]

/-- The local `hc_path` of the stub (lines 119-120). -/
def hc_path (out_dir : Bytes) : Bytes := snprintf_path 1024 out_dir extracted_hc

/-- The local `out_path` of one loop iteration (lines 145-146). -/
def out_path (out_dir name : Bytes) : Bytes := snprintf_path 2048 out_dir name

/-- The primary payload once `extracted.hc` has been written: the locals
`hc_size`, `hc_buf` and `hc_path`. -/
structure HcFile where
  hc_size : Nat
  hc_buf : Bytes
  hc_path : Bytes
deriving DecidableEq, Repr

/-- The locals of one completed iteration of the resource loop; `opened` tells
whether `fopen(out_path, "wb")` returned a stream. -/
structure ResRecord where
  name_len : Nat
  name : Bytes
  res_size : Nat
  res_buf : Bytes
  out_path : Bytes
  opened : Bool
deriving DecidableEq, Repr

/-- A finished run of the stub: the exit (`none` is `return 0`), the final
cursor of the input file, whether the loop ended on the `suspicious name_len`
break, the primary payload file if it was written and the loop iterations that
completed, in order. -/
structure Run where
  exit : Option Fatal
  cursor : Nat
  suspicious : Bool
  hc : Option HcFile
  resources : List ResRecord
deriving DecidableEq, Repr

/-- The file a completed iteration wrote, `fwrite(res_buf, 1, res_size, fr)`,
if its `fopen` succeeded. -/
def ResRecord.file (r : ResRecord) : Option (Bytes × Bytes) :=
  if r.opened then some (r.out_path, r.res_buf.take r.res_size) else none

/-- The file written for the primary payload, `fwrite(hc_buf, 1, hc_size, fhc)`. -/
def HcFile.file (h : HcFile) : Bytes × Bytes := (h.hc_path, h.hc_buf.take h.hc_size)

/-- Every (path, content) the run wrote, in the order of the writes. -/
def Run.files (r : Run) : List (Bytes × Bytes) :=
  (r.hc.map HcFile.file).toList ++ r.resources.filterMap ResRecord.file

/-- A run that exits through `perror_exit` or `return 1` with the cursor at
`cursor`, before any file of its own. -/
def Run.fatal (e : Fatal) (cursor : Nat) : Run :=
  { exit := some e, cursor := cursor, suspicious := false, hc := none, resources := [] }

/-- Put a completed iteration in front of the rest of the loop. -/
def Run.consResource (x : ResRecord) (r : Run) : Run :=
  { r with resources := x :: r.resources }

/-- Put the written primary payload in front of the rest of the run. -/
def Run.withHc (h : HcFile) (r : Run) : Run :=
  { r with hc := some h }

/-- The cursor after `fread` was asked for `n` bytes at `pos`. -/
def fread_end (me : Bytes) (pos n : Nat) : Nat := pos + (fread me pos n).length

/-- The resource loop of the stub (lines 131-159) with `n` iterations left and
the cursor at `pos`. -/
def resource_loop (env : Env) (me : Bytes) : Nat → Nat → Run
  | 0, pos =>
    { exit := none, cursor := pos, suspicious := false, hc := none, resources := [] }
  | n + 1, pos =>
    match read_u32_le me pos with
    | .error e => Run.fatal e (fread_end me pos 4)
    | .ok name_len =>
      if name_len = 0 ∨ name_len > 1000 then
        { exit := none, cursor := pos + 4, suspicious := true, hc := none, resources := [] }
      else
        let name := fread me (pos + 4) name_len
        if name.length ≠ name_len then Run.fatal .readName (fread_end me (pos + 4) name_len)
        else
          match read_u32_le me (pos + 4 + name_len) with
          | .error e => Run.fatal e (fread_end me (pos + 4 + name_len) 4)
          | .ok res_size =>
            let res_buf := fread me (pos + 4 + name_len + 4) res_size
            if res_buf.length ≠ res_size then
              Run.fatal .readResData (fread_end me (pos + 4 + name_len + 4) res_size)
            else
              let path := out_path env.out_dir name
              Run.consResource
                { name_len := name_len, name := name, res_size := res_size, res_buf := res_buf,
                  out_path := path, opened := env.canOpen path }
                (resource_loop env me n (pos + 4 + name_len + 4 + res_size))

/-- The stub from the `fseek` to `package_offset` on (lines 95-163). `hc_buf` is
the list of bytes `fread` stored; that they fit the allocation of line 113 is
the separate predicate `hc_buf_overrun`, and on an input where they do not this
run is not the C program's (see `extract_package_defined`). -/
def extract_package (env : Env) (me : Bytes) (package_offset : Nat) : Run :=
  let magic := fread me package_offset 4
  if magic.length ≠ 4 then Run.fatal .readMagic (fread_end me package_offset 4)
  else if magic ≠ MAGIC then Run.fatal .invalidMagic (package_offset + 4)
  else
    match read_u32_le me (package_offset + 4) with
    | .error e => Run.fatal e (fread_end me (package_offset + 4) 4)
    | .ok _version =>
      match read_u32_le me (package_offset + 8) with
      | .error e => Run.fatal e (fread_end me (package_offset + 8) 4)
      | .ok hc_size =>
        let hc_buf := fread me (package_offset + 12) hc_size
        if hc_buf.length ≠ hc_size then
          Run.fatal .readHcCode (fread_end me (package_offset + 12) hc_size)
        else if env.canOpen (hc_path env.out_dir) = false then
          Run.fatal .createExtractedHc (package_offset + 12 + hc_size)
        else
          Run.withHc { hc_size := hc_size, hc_buf := hc_buf, hc_path := hc_path env.out_dir }
            (match read_u32_le me (package_offset + 12 + hc_size) with
             | .error e => Run.fatal e (fread_end me (package_offset + 12 + hc_size) 4)
             | .ok num_resources =>
               resource_loop env me num_resources (package_offset + 12 + hc_size + 4))

/-- The local `scan_len`: the stub looks at the last 64 KiB of its own file. -/
def scan_len : Nat := 1024 * 64

/-- The local `marker_len`. -/
def marker_len : Nat := strlen MARKER

/-- The test `memcmp(buf + i, MARKER, marker_len) == 0`. -/
def memcmp_marker (buf : Bytes) (i : Nat) : Bool := (buf.drop i).take marker_len == MARKER

/-- The scan loop of line 80 from index `i` down to `0`: the first index at
which the comparison succeeds. -/
def scan_down (buf : Bytes) : Nat → Option Nat
  | 0 => if memcmp_marker buf 0 then some 0 else none
  | i + 1 => if memcmp_marker buf (i + 1) then some (i + 1) else scan_down buf i

/-- The marker scan of the stub (lines 64-92): the `package_offset` it computes,
or `none` when `pos` stays `NULL`. -/
def find_marker (me : Bytes) : Option Nat :=
  let file_len := me.length
  let start_scan := if file_len < scan_len then 0 else file_len - scan_len
  let buf := fread me start_scan (file_len - start_scan)
  let read_bytes := buf.length
  if read_bytes < marker_len then none
  else
    match scan_down buf (read_bytes - marker_len) with
    | none => none
    | some i => some (start_scan + i + marker_len)

/-- The stub run on its own executable file `me`. -/
def stub_main (env : Env) (me : Bytes) : Run :=
  match find_marker me with
  | none => Run.fatal .markerNotFound me.length
  | some package_offset => extract_package env me package_offset

/-! ## The wire layout in the words of the format description -/

/-- An unsigned 32-bit field, least significant byte first. -/
def le32 (v : Nat) : Bytes := [byte v, byte (v / 2 ^ 8), byte (v / 2 ^ 16), byte (v / 2 ^ 24)]

/-- The resource section of the format: for each resource in order `name_length`,
`name`, `data_length`, `data`. -/
def layout_resources : List (Bytes × Bytes) → Bytes
  | [] => []
  | (n, d) :: rest => le32 n.length ++ n ++ le32 d.length ++ d ++ layout_resources rest

/-- The container layout of the format: magic, version 1, payload length and
payload, resource count, resource section. -/
def layout (P : Bytes) (rs : List (Bytes × Bytes)) : Bytes :=
  MAGIC ++ le32 1 ++ le32 P.length ++ P ++ le32 rs.length ++ layout_resources rs

/-! ## Concrete inputs used to exercise the statements -/

/-- An environment in which every file can be created, with output directory
`out`. -/
def scenario_env : Env := { out_dir := [111, 117, 116], canOpen := fun _ => true }

/-- The twelve bytes of `PRINT("HI");`. -/
def scenario_payload : Bytes := [80, 82, 73, 78, 84, 40, 34, 72, 73, 34, 41, 59]

/-- One resource, `icon.bmp` with content DE AD BE EF. -/
def scenario_resources : List (Bytes × Bytes) :=
  [([105, 99, 111, 110, 46, 98, 109, 112], [222, 173, 190, 239])]

/-! ## Auxiliary notions for the statements -/

/-- The record the stub keeps for a resource `(name, data)` it has read. -/
def record_of (env : Env) (r : Bytes × Bytes) : ResRecord :=
  { name_len := r.1.length, name := r.1, res_size := r.2.length, res_buf := r.2,
    out_path := out_path env.out_dir r.1, opened := env.canOpen (out_path env.out_dir r.1) }

/-- Put several completed iterations in front of the rest of the loop. -/
def Run.prepend (xs : List ResRecord) (r : Run) : Run :=
  { r with resources := xs ++ r.resources }

/-- The marker occurs in `s` at position `p`: the nine bytes `s[p..p+9)` exist
and are the marker. -/
def marker_at (s : Bytes) (p : Nat) : Prop := p + 9 ≤ s.length ∧ (s.drop p).take 9 = MARKER

instance (s : Bytes) (p : Nat) : Decidable (marker_at s p) := by
  unfold marker_at
  exact inferInstance

/-- The marker occurs in `s` at position `p` inside the scan window, the final
65536 bytes of `s`. -/
def window_occurrence (s : Bytes) (p : Nat) : Prop := s.length - 65536 ≤ p ∧ marker_at s p

instance (s : Bytes) (p : Nat) : Decidable (window_occurrence s p) := by
  unfold window_occurrence
  exact inferInstance

/-- The same run with the input cursor counted from `k` bytes earlier in the
file. -/
def Run.shift (k : Nat) (r : Run) : Run := { r with cursor := k + r.cursor }

/-- The files the stub writes for the resources `recs` it has read: one per
resource whose output path can be opened, in order. -/
def files_of (env : Env) (recs : List (Bytes × Bytes)) : List (Bytes × Bytes) :=
  recs.filterMap (fun r =>
    if env.canOpen (out_path env.out_dir r.1) then some (out_path env.out_dir r.1, r.2)
    else none)

/-- The path made of `n` copies of `./` followed by `last`. -/
def dotted_path : Nat → Bytes → Bytes
  | 0, last => last
  | n + 1, last => 46 :: 47 :: dotted_path n last

/-- A resource list whose single name is a path of 1000 bytes, the longest the
stub accepts: 499 times `./`, then `ff`. -/
def boundary_resources : List (Bytes × Bytes) := [(dotted_path 499 [102, 102], [1, 2])]

/-- A resource list whose single name is a path of 1001 bytes: 500 times `./`,
then `f`. -/
def long_name_resources : List (Bytes × Bytes) := [(dotted_path 500 [102], [1, 2])]

/-- A payload file of 2^32 zero bytes. -/
def huge_payload : Bytes := List.replicate (2 ^ 32) 0

/-- The (name, data) pair the packer stores for a resource argument and its file
content: the characters of the argument and the bytes `read_file` returned. -/
def stored (arg : Bytes × Bytes) : Bytes × Bytes :=
  (arg.1.take (strlen arg.1 % 2 ^ 32), read_file arg.2)

/-- A run on a shortened input relates to the run on the whole input: it is the
same run, or it ends in a truncated-input exit having written the same payload
file and completed a prefix of the iterations. -/
def Run.cutOf (r full : Run) : Prop :=
  r = full ∨
    ((∃ e, r.exit = some e ∧ e.truncatedInput = true) ∧ r.hc = full.hc ∧
      r.resources <+: full.resources)

/-! ## The files on disk after a run of the stub -/

/-- The content a sequence of writes leaves in the file `f`, given which file
each path names: `fopen(path, "wb")` empties the file and `fwrite` fills it, so
the last write whose path names `f` decides; `none` when no write names `f`. -/
def file_after {ι : Type} [DecidableEq ι] (resolve : Bytes → ι) :
    List (Bytes × Bytes) → ι → Option Bytes
  | [], _ => none
  | w :: rest, f =>
    match file_after resolve rest f with
    | some d => some d
    | none => if resolve w.1 = f then some w.2 else none

/-! ## The packer as a program, `main` of `src/packager.c` -/

/-- What the packer is given by its environment: the bytes of the file
`fopen(path, "rb")` opens (`none` when it returns `NULL`) and which paths
`fopen(path, "wb")` can open. -/
structure PackEnv where
  content : Bytes → Option Bytes
  canCreate : Bytes → Bool

/-- A finished run of the packer: the exit status and, when `out_file` was
opened for writing, its path and the bytes written to it. -/
structure PackRun where
  status : Nat
  output : Option (Bytes × Bytes)
deriving DecidableEq, Repr

/-- The C function `read_file` on a path: the size stored through `out_size` and
the buffer returned, or `none` for the `exit(1)` taken when `fopen` fails. -/
def read_file_at (env : PackEnv) (filename : Bytes) : Option (Nat × Bytes) :=
  match env.content (cstr filename) with
  | none => none
  | some c => some (read_file_size c, read_file c)

/-- The loop of lines 58-63 over the resource arguments: the resource table, or
`none` when a `read_file` exits. -/
def load_resources (env : PackEnv) : List Bytes → Option (List Resource)
  | [] => some []
  | name :: rest =>
    match read_file_at env name with
    | none => none
    | some (size, data) =>
      match load_resources env rest with
      | none => none
      | some table => some ({ name := name, size := size, data := data } :: table)

/-- The function `main` of the packer on the argument vector `argv`. -/
def packager_main (env : PackEnv) (argv : List Bytes) : PackRun :=
  match argv with
  | _ :: hc_file :: out_file :: args =>
    match read_file_at env hc_file with
    | none => { status := 1, output := none }
    | some (hc_size, hc_data) =>
      match load_resources env args with
      | none => { status := 1, output := none }
      | some resources =>
        if env.canCreate (cstr out_file) then
          { status := 0,
            output := some (cstr out_file, write_package hc_size hc_data resources) }
        else { status := 1, output := none }
  | _ => { status := 1, output := none }

/-! ## More concrete inputs -/

/-- One resource named `extracted.hc`, with content 01 02 03. -/
def collision_resources : List (Bytes × Bytes) := [(extracted_hc, [1, 2, 3])]

/-- An output directory path of 1050 bytes: 510 times `./`, then thirty `d`. -/
def long_dir : Bytes := dotted_path 510 (List.replicate 30 100)

/-- An environment in which every file can be created, with the output directory
`long_dir`. -/
def long_env : Env := { out_dir := long_dir, canOpen := fun _ => true }

/-- A resource name of 1000 bytes: 490 times `./`, then twenty `f`. -/
def long_tail_name : Bytes := dotted_path 490 (List.replicate 20 102)

/-- A packer environment with a payload file `a` and a resource file `d/b`. -/
def scenario_pack_env : PackEnv :=
  { content := fun path =>
      if path = [97] then some scenario_payload
      else if path = [100, 47, 98] then some [222, 173, 190, 239]
      else none,
    canCreate := fun _ => true }

/-- Two resources: `icon.bmp` with content DE AD BE EF, then `b` with content 05. -/
def two_resources : List (Bytes × Bytes) :=
  [([105, 99, 111, 110, 46, 98, 109, 112], [222, 173, 190, 239]), ([98], [5])]

/-- An environment with output directory `out` in which `out/icon.bmp` cannot be
opened for writing and every other path can. -/
def blocked_env : Env :=
  { out_dir := [111, 117, 116],
    canOpen := fun path => path != [111, 117, 116, 47, 105, 99, 111, 110, 46, 98, 109, 112] }

/-- One resource whose name is `long_tail_name`, with content 01 02. -/
def long_tail_resources : List (Bytes × Bytes) := [(long_tail_name, [1, 2])]

/-- A container with an empty payload and one record whose three name bytes are
`a`, NUL, `b` and whose data is the byte 09. -/
def nul_name_stream : Bytes :=
  MAGIC ++ le32 1 ++ le32 0 ++ le32 1 ++ le32 3 ++ [97, 0, 98] ++ le32 1 ++ [9]

/-- Two resources with the same name `a`, the first with content 01, the second
with content 02. -/
def same_name_resources : List (Bytes × Bytes) := [([97], [1]), ([97], [2])]

/-- Two resources with the same name `long_tail_name`, with contents 01 02 and
03. -/
def long_twice_resources : List (Bytes × Bytes) :=
  [(long_tail_name, [1, 2]), (long_tail_name, [3])]

/-- An environment with output directory `out` in which `out/extracted.hc` cannot
be opened for writing and every other path can. -/
def payload_blocked_env : Env :=
  { out_dir := [111, 117, 116],
    canOpen := fun path =>
      path != [111, 117, 116, 47, 101, 120, 116, 114, 97, 99, 116, 101, 100, 46, 104, 99] }

/-! ## The allocation of `hc_buf` -/

/-- The size the stub asks of `malloc` for `hc_buf` (line 113): `hc_size + 1`
computed in `uint32_t`, so `0` for `hc_size = 0xFFFFFFFF`. -/
def hc_buf_capacity (hc_size : Nat) : Nat := (hc_size + 1) % 2 ^ 32

/-- The size the stub asks of `malloc` for `name` (line 134): `name_len + 1`
computed in `uint32_t`. -/
def name_capacity (name_len : Nat) : Nat := (name_len + 1) % 2 ^ 32

/-- The size the stub asks of `malloc` for `res_buf` (line 140): `res_size`. -/
def res_buf_capacity (res_size : Nat) : Nat := res_size

/-- The value of `hc_size` with which the stub, run from `package_offset`,
reaches the `malloc` of line 113: the magic matched and both `uint32_t` header
fields were read (lines 99-110); `none` when it exits before. -/
def hc_alloc_size (me : Bytes) (package_offset : Nat) : Option Nat :=
  let magic := fread me package_offset 4
  if magic.length ≠ 4 then none
  else if magic ≠ MAGIC then none
  else
    match read_u32_le me (package_offset + 4) with
    | .error _ => none
    | .ok _version =>
      match read_u32_le me (package_offset + 8) with
      | .error _ => none
      | .ok hc_size => some hc_size

/-- Whether the stub, run from `package_offset`, writes outside `hc_buf` (lines
113-116): `fread(hc_buf, 1, hc_size, me)` stores every byte it gets, up to
`hc_size` of them, in the `hc_buf_capacity hc_size` bytes `malloc` was asked for,
and after a complete read `hc_buf[hc_size] = 0` writes at index `hc_size`. -/
def hc_buf_overrun (me : Bytes) (package_offset : Nat) : Bool :=
  match hc_alloc_size me package_offset with
  | none => false
  | some hc_size =>
    let got := (fread me (package_offset + 12) hc_size).length
    decide (hc_buf_capacity hc_size < got) ||
      (decide (got = hc_size) && decide (hc_buf_capacity hc_size < hc_size + 1))

/-- The run of the stub from `package_offset` where the C program has one:
`none` when it writes outside `hc_buf`, after which C gives its behaviour no
meaning; otherwise the run `extract_package` describes. -/
def extract_package_defined (env : Env) (me : Bytes) (package_offset : Nat) : Option Run :=
  if hc_buf_overrun me package_offset then none
  else some (extract_package env me package_offset)

/-- The run of the stub on its own executable file `me` where the C program has
one: `none` when the extraction from the located offset writes outside `hc_buf`. -/
def stub_main_defined (env : Env) (me : Bytes) : Option Run :=
  match find_marker me with
  | none => some (Run.fatal .markerNotFound me.length)
  | some package_offset => extract_package_defined env me package_offset

/-- A stub image of 88 bytes: three bytes of code, the marker, and a package
whose payload length field is `FF FF FF FF` with 64 bytes left after it. -/
def overrun_image : Bytes :=
  [1, 2, 3] ++ MARKER ++ MAGIC ++ le32 1 ++ [255, 255, 255, 255] ++ List.replicate 64 65

/-- A payload file of `2^32 - 1` bytes, the largest size a `uint32_t` holds. -/
def wrap_payload : Bytes := List.replicate (2 ^ 32 - 1) 65

/-! ## Lemmas on the codec -/

theorem write_uint32_eq_le32 (v : Nat) : write_uint32 v = le32 v := by
  simp only [write_uint32, le32, byte, List.cons.injEq, Fin.mk.injEq, and_true]
  refine ⟨?_, ?_, ?_, ?_⟩ <;> omega

theorem le32_length (v : Nat) : (le32 v).length = 4 := rfl

theorem fread_shift (pre me : Bytes) (pos n : Nat) :
    fread (pre ++ me) (pre.length + pos) n = fread me pos n := by
  simp [fread, List.drop_append]

theorem fread_exact (x post : Bytes) : fread (x ++ post) 0 x.length = x := by
  simp [fread]

theorem fread_mid (pre x post : Bytes) : fread (pre ++ (x ++ post)) pre.length x.length = x := by
  have h := fread_shift pre (x ++ post) 0 x.length
  rw [Nat.add_zero] at h
  rw [h, fread_exact]

theorem read_u32_le_shift (pre me : Bytes) (pos : Nat) :
    read_u32_le (pre ++ me) (pre.length + pos) = read_u32_le me pos := by
  simp only [read_u32_le, fread_shift]

theorem read_u32_le_write (v : Nat) (post : Bytes) :
    read_u32_le (write_uint32 v ++ post) 0 = .ok (v % 2 ^ 32) := by
  simp only [read_u32_le, fread, write_uint32, byte]
  simp
  omega

theorem read_u32_le_mid (pre post : Bytes) (v : Nat) :
    read_u32_le (pre ++ (write_uint32 v ++ post)) pre.length = .ok (v % 2 ^ 32) := by
  have h := read_u32_le_shift pre (write_uint32 v ++ post) 0
  rw [Nat.add_zero] at h
  rw [h, read_u32_le_write]

theorem read_u32_le_short (me : Bytes) (pos : Nat) (h : me.length < pos + 4) :
    read_u32_le me pos = .error .read_u32_le := by
  have hl : (fread me pos 4).length < 4 := by
    simp only [fread, List.length_take, List.length_drop]
    omega
  unfold read_u32_le
  split
  · next heq => rw [heq] at hl; simp at hl
  · rfl

theorem cstr_eq_self (str : Bytes) (h : (0 : Byte) ∉ str) : cstr str = str := by
  unfold cstr
  rw [List.takeWhile_eq_self_iff]
  intro x hx
  simp only [bne_iff_ne, ne_eq]
  rintro rfl
  exact h hx

theorem strlen_eq_length (str : Bytes) (h : (0 : Byte) ∉ str) : strlen str = str.length := by
  rw [strlen, cstr_eq_self str h]

theorem read_file_eq_self (content : Bytes) (h : content.length < 2 ^ 32) :
    read_file content = content := by
  rw [read_file, read_file_size, Nat.mod_eq_of_lt h, List.take_length]

theorem read_file_size_eq (content : Bytes) (h : content.length < 2 ^ 32) :
    read_file_size content = content.length := by
  rw [read_file_size, Nat.mod_eq_of_lt h]

theorem write_resource_load (n d : Bytes) (hn0 : (0 : Byte) ∉ n) (hn : n.length < 2 ^ 32)
    (hd : d.length < 2 ^ 32) :
    write_resource (load_resource (n, d)) =
      write_uint32 n.length ++ n ++ write_uint32 d.length ++ d := by
  simp only [write_resource, load_resource, strlen_eq_length n hn0, Nat.mod_eq_of_lt hn,
    read_file_size_eq d hd, read_file_eq_self d hd, List.take_length]

theorem write_resources_layout (rs : List (Bytes × Bytes))
    (hrs : ∀ r ∈ rs, (0 : Byte) ∉ r.1 ∧ r.1.length < 2 ^ 32 ∧ r.2.length < 2 ^ 32) :
    write_resources (rs.map load_resource) = layout_resources rs := by
  induction rs with
  | nil => rfl
  | cons r rest ih =>
    obtain ⟨n, d⟩ := r
    have h := hrs (n, d) (List.mem_cons_self _ _)
    have ih2 := ih (fun x hx => hrs x (List.mem_cons_of_mem _ hx))
    simp only [List.map_cons, write_resources, layout_resources, ih2,
      write_resource_load n d h.1 h.2.1 h.2.2, write_uint32_eq_le32, List.append_assoc]

theorem layout_resources_length (rs : List (Bytes × Bytes)) :
    (layout_resources rs).length = (rs.map (fun r => 8 + r.1.length + r.2.length)).sum := by
  induction rs with
  | nil => rfl
  | cons r rest ih =>
    obtain ⟨n, d⟩ := r
    simp only [layout_resources, List.length_append, le32_length, ih, List.map_cons, List.sum_cons]
    omega

theorem pack_eq_layout (P : Bytes) (rs : List (Bytes × Bytes)) (hP : P.length < 2 ^ 32)
    (hrs : ∀ r ∈ rs, (0 : Byte) ∉ r.1 ∧ r.1.length < 2 ^ 32 ∧ r.2.length < 2 ^ 32) :
    pack P rs = layout P rs := by
  simp only [pack, write_package, layout, read_file_size_eq P hP, read_file_eq_self P hP,
    List.take_length, write_resources_layout rs hrs, write_uint32_eq_le32, List.length_map,
    VERSION]

theorem layout_length (P : Bytes) (rs : List (Bytes × Bytes)) :
    (layout P rs).length =
      16 + P.length + (rs.map (fun r => 8 + r.1.length + r.2.length)).sum := by
  simp only [layout, List.length_append, le32_length, layout_resources_length, MAGIC,
    List.length_cons, List.length_nil]
  omega

/-- C2. Wire layout: for a payload and resources whose lengths are below 2^32
(the names being C strings), the packer writes exactly magic, version 1, payload
length, payload, resource count and then, in input order, each name length, name,
data length and data, with nothing else, so the output has
16 + |P| + sum (8 + |n_i| + |d_i|) bytes. -/
theorem pack_wire_layout (P : Bytes) (rs : List (Bytes × Bytes)) (hP : P.length < 2 ^ 32)
    (hrs : ∀ r ∈ rs, (0 : Byte) ∉ r.1 ∧ r.1.length < 2 ^ 32 ∧ r.2.length < 2 ^ 32) :
    pack P rs = layout P rs ∧
      (pack P rs).length =
        16 + P.length + (rs.map (fun r => 8 + r.1.length + r.2.length)).sum := by
  rw [pack_eq_layout P rs hP hrs]
  exact ⟨rfl, layout_length P rs⟩

/-- C2, the concrete scenario: the payload `PRINT("HI");` with the resource
`icon.bmp` holding DE AD BE EF packs to the 48 bytes of the format description. -/
theorem pack_wire_layout_witness :
    scenario_payload.length < 2 ^ 32 ∧
    (∀ r ∈ scenario_resources, (0 : Byte) ∉ r.1 ∧ r.1.length < 2 ^ 32 ∧ r.2.length < 2 ^ 32) ∧
    pack scenario_payload scenario_resources = layout scenario_payload scenario_resources ∧
    (pack scenario_payload scenario_resources).length = 48 ∧
    pack scenario_payload scenario_resources =
      [72, 67, 80, 75, 1, 0, 0, 0, 12, 0, 0, 0,
       80, 82, 73, 78, 84, 40, 34, 72, 73, 34, 41, 59,
       1, 0, 0, 0, 8, 0, 0, 0, 105, 99, 111, 110, 46, 98, 109, 112,
       4, 0, 0, 0, 222, 173, 190, 239] := by
  have hP : scenario_payload.length < 2 ^ 32 := by decide
  have hrs : ∀ r ∈ scenario_resources,
      (0 : Byte) ∉ r.1 ∧ r.1.length < 2 ^ 32 ∧ r.2.length < 2 ^ 32 := by decide
  have h := pack_wire_layout scenario_payload scenario_resources hP hrs
  exact ⟨hP, hrs, h.1, by rw [h.2]; decide, by decide⟩

/-- C10. Integer codec: for a value below 2^32 `write_uint32` emits exactly four
bytes, least significant first, and `read_u32_le` positioned on them returns the
value; `read_u32_le` ends in its truncated-input exit whenever fewer than four
bytes remain after the cursor. -/
theorem uint32_codec (v : Nat) (hv : v < 2 ^ 32) :
    (write_uint32 v).map Fin.val = [v % 256, v / 256 % 256, v / 65536 % 256, v / 16777216] ∧
    read_u32_le (write_uint32 v) 0 = .ok v ∧
    (∀ pre post : Bytes, read_u32_le (pre ++ (write_uint32 v ++ post)) pre.length = .ok v) ∧
    (∀ (me : Bytes) (pos : Nat), me.length < pos + 4 →
      read_u32_le me pos = .error .read_u32_le ∧
        Fatal.truncatedInput .read_u32_le = true) := by
  refine ⟨?_, ?_, ?_, ?_⟩
  · simp only [write_uint32, byte, List.map_cons, List.map_nil, List.cons.injEq, and_true]
    refine ⟨?_, ?_, ?_, ?_⟩ <;> omega
  · have h := read_u32_le_write v []
    rw [List.append_nil, Nat.mod_eq_of_lt hv] at h
    exact h
  · intro pre post
    rw [read_u32_le_mid, Nat.mod_eq_of_lt hv]
  · intro me pos h
    exact ⟨read_u32_le_short me pos h, rfl⟩

/-- C10 at the value 0x01020304. -/
theorem uint32_codec_witness :
    16909060 < 2 ^ 32 ∧ write_uint32 16909060 = [4, 3, 2, 1] ∧
      read_u32_le [4, 3, 2, 1] 0 = .ok 16909060 ∧
      read_u32_le [4, 3, 2] 0 = .error .read_u32_le := by
  have h := uint32_codec 16909060 (by decide)
  have hw : write_uint32 16909060 = [4, 3, 2, 1] := by decide
  refine ⟨by decide, hw, ?_, ?_⟩
  · rw [← hw]; exact h.2.1
  · exact (h.2.2.2 [4, 3, 2] 0 (by decide)).1

/-! ## Lemmas on reading at a known place of the stream -/

theorem fread_at (me A x B : Bytes) (pos n : Nat) (hme : me = A ++ (x ++ B))
    (hpos : pos = A.length) (hn : n = x.length) : fread me pos n = x := by
  subst hme hpos hn
  exact fread_mid A x B

theorem read_u32_le_at (me A B : Bytes) (pos v : Nat) (hme : me = A ++ (le32 v ++ B))
    (hpos : pos = A.length) (hv : v < 2 ^ 32) : read_u32_le me pos = .ok v := by
  subst hme hpos
  rw [← write_uint32_eq_le32, read_u32_le_mid, Nat.mod_eq_of_lt hv]

theorem fread_length (me : Bytes) (pos n : Nat) :
    (fread me pos n).length = min n (me.length - pos) := by
  simp only [fread, List.length_take, List.length_drop]

theorem resource_loop_step (env : Env) (me A nm dt B : Bytes) (k : Nat)
    (hme : me = A ++ (le32 nm.length ++ (nm ++ (le32 dt.length ++ (dt ++ B)))))
    (hn1 : 1 ≤ nm.length) (hn2 : nm.length ≤ 1000) (hd : dt.length < 2 ^ 32) :
    resource_loop env me (k + 1) A.length =
      Run.consResource (record_of env (nm, dt))
        (resource_loop env me k (A.length + 4 + nm.length + 4 + dt.length)) := by
  have h1 : read_u32_le me A.length = .ok nm.length :=
    read_u32_le_at me A _ _ _ hme rfl (by omega)
  have h2 : fread me (A.length + 4) nm.length = nm :=
    fread_at me (A ++ le32 nm.length) nm (le32 dt.length ++ (dt ++ B)) _ _ (by simp [hme])
      (by simp [le32_length]) rfl
  have h3 : read_u32_le me (A.length + 4 + nm.length) = .ok dt.length :=
    read_u32_le_at me (A ++ (le32 nm.length ++ nm)) (dt ++ B) _ _ (by simp [hme])
      (by simp [le32_length]; omega) hd
  have h4 : fread me (A.length + 4 + nm.length + 4) dt.length = dt :=
    fread_at me (A ++ (le32 nm.length ++ (nm ++ le32 dt.length))) dt B _ _ (by simp [hme])
      (by simp [le32_length]; omega) rfl
  rw [resource_loop]
  simp only [h1, h2, h3, h4]
  rw [if_neg (by omega), if_neg (by simp)]
  simp only [ne_eq, not_true_eq_false, if_false, record_of]

theorem resource_loop_stop (env : Env) (me A B : Bytes) (k v : Nat)
    (hme : me = A ++ (le32 v ++ B)) (hv : v < 2 ^ 32) (hbad : v = 0 ∨ v > 1000) :
    resource_loop env me (k + 1) A.length =
      { exit := none, cursor := A.length + 4, suspicious := true, hc := none,
        resources := [] } := by
  have h1 : read_u32_le me A.length = .ok v := read_u32_le_at me A B _ _ hme rfl hv
  rw [resource_loop]
  simp only [h1]
  rw [if_pos hbad]

theorem Run.prepend_nil (r : Run) : Run.prepend [] r = r := rfl

theorem Run.consResource_prepend (x : ResRecord) (xs : List ResRecord) (r : Run) :
    Run.consResource x (Run.prepend xs r) = Run.prepend (x :: xs) r := rfl

theorem resource_loop_good (env : Env) (recs : List (Bytes × Bytes))
    (hgood : ∀ r ∈ recs, 1 ≤ r.1.length ∧ r.1.length ≤ 1000 ∧ r.2.length < 2 ^ 32) :
    ∀ (me A B : Bytes) (k : Nat), me = A ++ (layout_resources recs ++ B) →
      resource_loop env me (recs.length + k) A.length =
        Run.prepend (recs.map (record_of env))
          (resource_loop env me k (A.length + (layout_resources recs).length)) := by
  induction recs with
  | nil =>
    intro me A B k _
    simp [layout_resources, Run.prepend_nil]
  | cons r rest ih =>
    intro me A B k hme
    obtain ⟨nm, dt⟩ := r
    have hr := hgood (nm, dt) (List.mem_cons_self _ _)
    have hrest := fun x hx => hgood x (List.mem_cons_of_mem _ hx)
    have hme1 : me = A ++ (le32 nm.length ++ (nm ++ (le32 dt.length ++
        (dt ++ (layout_resources rest ++ B))))) := by
      simp [hme, layout_resources]
    have hk : ((nm, dt) :: rest).length + k = (rest.length + k) + 1 := by
      simp only [List.length_cons]; omega
    rw [hk, resource_loop_step env me A nm dt _ _ hme1 hr.1 hr.2.1 hr.2.2]
    have hme2 : me = (A ++ (le32 nm.length ++ (nm ++ (le32 dt.length ++ dt)))) ++
        (layout_resources rest ++ B) := by
      simp [hme, layout_resources]
    have hA : (A ++ (le32 nm.length ++ (nm ++ (le32 dt.length ++ dt)))).length =
        A.length + 4 + nm.length + 4 + dt.length := by
      simp only [List.length_append, le32_length]; omega
    have h := ih hrest me _ B k hme2
    rw [hA] at h
    rw [h, Run.consResource_prepend]
    have hL : A.length + (layout_resources ((nm, dt) :: rest)).length =
        A.length + 4 + nm.length + 4 + dt.length + (layout_resources rest).length := by
      simp only [layout_resources, List.length_append, le32_length]; omega
    rw [hL]
    rfl

theorem extract_header (env : Env) (me A P B : Bytes) (v n : Nat)
    (hme : me = A ++ (MAGIC ++ (le32 v ++ (le32 P.length ++ (P ++ (le32 n ++ B))))))
    (hv : v < 2 ^ 32) (hP : P.length < 2 ^ 32) (hn : n < 2 ^ 32)
    (hopen : env.canOpen (hc_path env.out_dir) = true) :
    extract_package env me A.length =
      Run.withHc { hc_size := P.length, hc_buf := P, hc_path := hc_path env.out_dir }
        (resource_loop env me n (A.length + 12 + P.length + 4)) := by
  have h0 : fread me A.length 4 = MAGIC :=
    fread_at me A MAGIC (le32 v ++ (le32 P.length ++ (P ++ (le32 n ++ B)))) _ _ hme rfl rfl
  have h1 : read_u32_le me (A.length + 4) = .ok v :=
    read_u32_le_at me (A ++ MAGIC) (le32 P.length ++ (P ++ (le32 n ++ B))) _ _
      (by simp [hme]) (by simp [MAGIC]) hv
  have h2 : read_u32_le me (A.length + 8) = .ok P.length :=
    read_u32_le_at me (A ++ (MAGIC ++ le32 v)) (P ++ (le32 n ++ B)) _ _
      (by simp [hme]) (by simp [MAGIC, le32_length]) hP
  have h3 : fread me (A.length + 12) P.length = P :=
    fread_at me (A ++ (MAGIC ++ (le32 v ++ le32 P.length))) P (le32 n ++ B) _ _
      (by simp [hme]) (by simp [MAGIC, le32_length]) rfl
  have h4 : read_u32_le me (A.length + 12 + P.length) = .ok n :=
    read_u32_le_at me (A ++ (MAGIC ++ (le32 v ++ (le32 P.length ++ P)))) B _ _
      (by simp [hme]) (by simp [MAGIC, le32_length]; omega) hn
  unfold extract_package
  simp only [h0, h1, h2, h3, h4, hopen]
  simp [MAGIC]

theorem pack_nil (P : Bytes) (hP : P.length < 2 ^ 32) :
    pack P [] = MAGIC ++ (le32 1 ++ (le32 P.length ++ (P ++ (le32 0 ++ [])))) := by
  rw [pack_eq_layout P [] hP (by simp)]
  simp [layout, layout_resources]

/-- C9. Empty resource list: a payload shorter than 2^32 bytes packed with no
resource gives magic, version 1, payload length, payload and a zero resource
count; extracting that container (the payload file being creatable) returns
success, writes the payload as the only file and processes no resource. -/
theorem pack_empty_resources (env : Env) (P : Bytes) (hP : P.length < 2 ^ 32) :
    pack P [] = MAGIC ++ le32 1 ++ le32 P.length ++ P ++ [0, 0, 0, 0] ∧
    (env.canOpen (hc_path env.out_dir) = true →
      extract_package env (pack P []) 0 =
        { exit := none, cursor := (pack P []).length, suspicious := false,
          hc := some { hc_size := P.length, hc_buf := P, hc_path := hc_path env.out_dir },
          resources := [] } ∧
      (extract_package env (pack P []) 0).files = [(hc_path env.out_dir, P)]) := by
  have hpk := pack_nil P hP
  refine ⟨?_, ?_⟩
  · rw [hpk]
    simp only [List.append_assoc, List.append_nil]
    rfl
  · intro hopen
    have hme : pack P [] = [] ++ (MAGIC ++ (le32 1 ++ (le32 P.length ++ (P ++ (le32 0 ++ []))))) := by
      rw [hpk, List.nil_append]
    have h := extract_header env (pack P []) [] P [] 1 0 hme (by decide) hP (by decide) hopen
    have hlen : (pack P []).length = 16 + P.length := by
      rw [hpk]
      simp only [List.length_append, le32_length, MAGIC, List.length_cons, List.length_nil]
      omega
    simp only [List.length_nil] at h
    have hrun : extract_package env (pack P []) 0 =
        { exit := none, cursor := (pack P []).length, suspicious := false,
          hc := some { hc_size := P.length, hc_buf := P, hc_path := hc_path env.out_dir },
          resources := [] } := by
      rw [h, hlen, resource_loop]
      simp only [Run.withHc, Run.mk.injEq, true_and, and_true]
      omega
    refine ⟨hrun, ?_⟩
    rw [hrun]
    simp [Run.files, HcFile.file]

/-- C9 on the payload `PRINT("HI");`. -/
theorem pack_empty_resources_witness :
    scenario_payload.length < 2 ^ 32 ∧
    scenario_env.canOpen (hc_path scenario_env.out_dir) = true ∧
    pack scenario_payload [] =
      [72, 67, 80, 75, 1, 0, 0, 0, 12, 0, 0, 0,
       80, 82, 73, 78, 84, 40, 34, 72, 73, 34, 41, 59, 0, 0, 0, 0] ∧
    (extract_package scenario_env (pack scenario_payload []) 0).files =
      [(hc_path scenario_env.out_dir, scenario_payload)] ∧
    (extract_package scenario_env (pack scenario_payload []) 0).exit = none := by
  have h := pack_empty_resources scenario_env scenario_payload (by decide)
  have h2 := h.2 rfl
  refine ⟨by decide, rfl, by decide, h2.2, ?_⟩
  rw [h2.1]

theorem extract_package_bad_magic (env : Env) (me : Bytes) (off : Nat)
    (h4 : off + 4 ≤ me.length) (hne : fread me off 4 ≠ MAGIC) :
    extract_package env me off = Run.fatal .invalidMagic (off + 4) := by
  have hl : (fread me off 4).length = 4 := by
    rw [fread_length]; omega
  unfold extract_package
  simp only [hl, ne_eq, not_true_eq_false, if_false, hne, not_false_eq_true, if_true]

/-- C3. Magic rejection: when four bytes are available at the start offset and
they are not `HCPK`, extraction exits with the invalid-magic error and has written
no file, whatever the other bytes of the stream are; so does the whole stub when
its marker scan leads to such an offset. -/
theorem magic_rejection (env : Env) (me : Bytes) (off : Nat)
    (h4 : off + 4 ≤ me.length) (hne : fread me off 4 ≠ MAGIC) :
    (extract_package env me off).exit = some .invalidMagic ∧
    (extract_package env me off).files = [] ∧
    (find_marker me = some off →
      (stub_main env me).exit = some .invalidMagic ∧ (stub_main env me).files = []) := by
  have h := extract_package_bad_magic env me off h4 hne
  refine ⟨by rw [h]; rfl, by rw [h]; rfl, ?_⟩
  intro hm
  simp only [stub_main, hm, h]
  exact ⟨rfl, rfl⟩

/-- C3 on a stream whose package starts with `HCPX`. -/
theorem magic_rejection_witness :
    9 + 4 ≤ (MARKER ++ [72, 67, 80, 88, 1, 0, 0, 0, 0, 0, 0, 0, 0, 0, 0, 0] : Bytes).length ∧
    fread (MARKER ++ [72, 67, 80, 88, 1, 0, 0, 0, 0, 0, 0, 0, 0, 0, 0, 0]) 9 4 ≠ MAGIC ∧
    (stub_main scenario_env
      (MARKER ++ [72, 67, 80, 88, 1, 0, 0, 0, 0, 0, 0, 0, 0, 0, 0, 0])).exit
        = some .invalidMagic ∧
    (stub_main scenario_env
      (MARKER ++ [72, 67, 80, 88, 1, 0, 0, 0, 0, 0, 0, 0, 0, 0, 0, 0])).files = [] := by
  have h := magic_rejection scenario_env
    (MARKER ++ [72, 67, 80, 88, 1, 0, 0, 0, 0, 0, 0, 0, 0, 0, 0, 0]) 9 (by decide) (by decide)
  exact ⟨by decide, by decide, h.2.2 (by decide)⟩

theorem extract_package_header_fails (env : Env) (me : Bytes) (off : Nat)
    (h : me.length < off + 12 ∨
      ∃ hc_size, read_u32_le me (off + 8) = .ok hc_size ∧ me.length < off + 12 + hc_size) :
    ∃ e c, extract_package env me off = Run.fatal e c := by
  unfold extract_package
  simp only
  split
  · exact ⟨_, _, rfl⟩
  · split
    · exact ⟨_, _, rfl⟩
    · split
      · exact ⟨_, _, rfl⟩
      · split
        · exact ⟨_, _, rfl⟩
        · next hc_size hread =>
          have hshort : (fread me (off + 12) hc_size).length ≠ hc_size := by
            rw [fread_length]
            have hge : off + 12 ≤ me.length := by
              by_contra hlt
              have hno := read_u32_le_short me (off + 8) (by omega)
              rw [hno] at hread
              cases hread
            rcases h with h | ⟨s, hs, hlt⟩
            · omega
            · rw [hs] at hread
              cases hread
              omega
          rw [if_pos hshort]
          exact ⟨_, _, rfl⟩

/-! ## The marker scan -/

theorem marker_len_eq : marker_len = 9 := by decide

theorem scan_down_some (buf : Bytes) (i j : Nat) (h : scan_down buf i = some j) :
    j ≤ i ∧ memcmp_marker buf j = true ∧
      ∀ q, j < q → q ≤ i → memcmp_marker buf q = false := by
  induction i with
  | zero =>
    simp only [scan_down] at h
    split at h
    · next hm =>
      cases h
      exact ⟨Nat.le_refl 0, hm, fun q h1 h2 => by omega⟩
    · cases h
  | succ i ih =>
    simp only [scan_down] at h
    split at h
    · next hm =>
      cases h
      exact ⟨Nat.le_refl _, hm, fun q h1 h2 => by omega⟩
    · next hm =>
      obtain ⟨h1, h2, h3⟩ := ih h
      refine ⟨by omega, h2, ?_⟩
      intro q hq1 hq2
      by_cases hq : q = i + 1
      · subst hq
        simpa using hm
      · exact h3 q hq1 (by omega)

theorem scan_down_none (buf : Bytes) (i : Nat) (h : scan_down buf i = none) :
    ∀ q, q ≤ i → memcmp_marker buf q = false := by
  induction i with
  | zero =>
    simp only [scan_down] at h
    split at h
    · cases h
    · next hm =>
      intro q hq
      have : q = 0 := by omega
      subst this
      simpa using hm
  | succ i ih =>
    simp only [scan_down] at h
    split at h
    · cases h
    · next hm =>
      intro q hq
      by_cases hq1 : q = i + 1
      · subst hq1
        simpa using hm
      · exact ih h q (by omega)

theorem memcmp_marker_drop (s : Bytes) (a i : Nat) :
    memcmp_marker (s.drop a) i = true ↔ (s.drop (a + i)).take 9 = MARKER := by
  simp only [memcmp_marker, marker_len_eq, List.drop_drop, beq_iff_eq]

theorem marker_at_length (s : Bytes) (p : Nat) (h : (s.drop p).take 9 = MARKER) :
    p + 9 ≤ s.length := by
  have hl := congrArg List.length h
  simp only [List.length_take, List.length_drop, MARKER, List.length_cons,
    List.length_nil] at hl
  omega

theorem find_marker_eq (s : Bytes) :
    find_marker s =
      if s.length - (s.length - 65536) < 9 then none
      else
        match scan_down (s.drop (s.length - 65536)) (s.length - (s.length - 65536) - 9) with
        | none => none
        | some i => some (s.length - 65536 + i + 9) := by
  have hstart : (if s.length < scan_len then 0 else s.length - scan_len) = s.length - 65536 := by
    simp only [scan_len]
    split <;> omega
  have hbuf : fread s (s.length - 65536) (s.length - (s.length - 65536)) =
      s.drop (s.length - 65536) := by
    simp only [fread]
    apply List.take_of_length_le
    simp only [List.length_drop]
    exact Nat.le_refl _
  unfold find_marker
  simp only [hstart, hbuf, marker_len_eq, List.length_drop]

theorem memcmp_marker_window (s : Bytes) (i : Nat) :
    memcmp_marker (s.drop (s.length - 65536)) i = true ↔
      window_occurrence s (s.length - 65536 + i) := by
  rw [memcmp_marker_drop]
  constructor
  · intro h
    exact ⟨by omega, marker_at_length s _ h, h⟩
  · intro h
    exact h.2.2

theorem find_marker_some_iff (s : Bytes) (off : Nat) :
    find_marker s = some off ↔
      ∃ p, off = p + 9 ∧ window_occurrence s p ∧ ∀ q, window_occurrence s q → q ≤ p := by
  rw [find_marker_eq]
  constructor
  · intro h
    split at h
    · cases h
    · next hrb =>
      split at h
      · cases h
      · next i hi =>
        cases h
        obtain ⟨h1, h2, h3⟩ := scan_down_some _ _ _ hi
        refine ⟨s.length - 65536 + i, rfl, (memcmp_marker_window s i).1 h2, ?_⟩
        intro q hq
        by_contra hlt
        have hq' := hq
        obtain ⟨hq1, hq2, _⟩ := hq
        have hf := h3 (q - (s.length - 65536)) (by omega) (by omega)
        have ht := (memcmp_marker_window s (q - (s.length - 65536))).2
          (by rw [Nat.add_sub_cancel' hq1]; exact hq')
        rw [ht] at hf
        cases hf
  · rintro ⟨p, rfl, hp, hmax⟩
    have hp' := hp
    obtain ⟨hp1, hp2, _⟩ := hp
    rw [if_neg (by omega)]
    have hpt := (memcmp_marker_window s (p - (s.length - 65536))).2
      (by rw [Nat.add_sub_cancel' hp1]; exact hp')
    split
    · next hnone =>
      have hf := scan_down_none _ _ hnone (p - (s.length - 65536)) (by omega)
      rw [hpt] at hf
      cases hf
    · next i hi =>
      obtain ⟨h1, h2, h3⟩ := scan_down_some _ _ _ hi
      have hle := hmax _ ((memcmp_marker_window s i).1 h2)
      have heq : s.length - 65536 + i = p := by
        by_contra hne
        have hf := h3 (p - (s.length - 65536)) (by omega) (by omega)
        rw [hpt] at hf
        cases hf
      rw [heq]

theorem find_marker_none_iff (s : Bytes) :
    find_marker s = none ↔ ¬ ∃ p, window_occurrence s p := by
  constructor
  · rintro h ⟨p, hp⟩
    rw [find_marker_eq] at h
    have hp' := hp
    obtain ⟨hp1, hp2, _⟩ := hp
    rw [if_neg (by omega)] at h
    have hpt := (memcmp_marker_window s (p - (s.length - 65536))).2
      (by rw [Nat.add_sub_cancel' hp1]; exact hp')
    split at h
    · next hnone =>
      have hf := scan_down_none _ _ hnone (p - (s.length - 65536)) (by omega)
      rw [hpt] at hf
      cases hf
    · cases h
  · intro h
    cases hfm : find_marker s with
    | none => rfl
    | some off =>
      obtain ⟨p, _, hp, _⟩ := (find_marker_some_iff s off).1 hfm
      exact absurd ⟨p, hp⟩ h

/-- C4. Tail-locator specification: the marker scan returns `p + 9` exactly for
the greatest position `p` at which the nine marker bytes occur inside the final
65536 bytes of the stream, and returns nothing exactly when no such position
exists; so it returns nothing for a stream shorter than nine bytes and when every
occurrence starts before the window, and of two occurrences in the window the
right one decides the result. -/
theorem tail_locator_spec (s : Bytes) :
    (∀ off, find_marker s = some off ↔
      ∃ p, off = p + 9 ∧ window_occurrence s p ∧ ∀ q, window_occurrence s q → q ≤ p) ∧
    (find_marker s = none ↔ ¬ ∃ p, window_occurrence s p) ∧
    (s.length < 9 → find_marker s = none) ∧
    ((∀ p, marker_at s p → p < s.length - 65536) → find_marker s = none) ∧
    (∀ p q, window_occurrence s p → window_occurrence s q → p < q →
      (∀ r, window_occurrence s r → r = p ∨ r = q) → find_marker s = some (q + 9)) := by
  refine ⟨find_marker_some_iff s, find_marker_none_iff s, ?_, ?_, ?_⟩
  · intro hs
    rw [find_marker_none_iff]
    rintro ⟨p, _, hp, _⟩
    omega
  · intro hall
    rw [find_marker_none_iff]
    rintro ⟨p, hp1, hp2⟩
    have := hall p hp2
    omega
  · intro p q _ hq hpq honly
    rw [find_marker_some_iff]
    refine ⟨q, rfl, hq, ?_⟩
    intro r hr
    rcases honly r hr with h | h <;> omega

/-- C4 on a stream holding the marker at positions 0 and 10. -/
theorem tail_locator_spec_witness :
    window_occurrence (MARKER ++ [1] ++ MARKER ++ [2, 3]) 0 ∧
    window_occurrence (MARKER ++ [1] ++ MARKER ++ [2, 3]) 10 ∧
    find_marker (MARKER ++ [1] ++ MARKER ++ [2, 3]) = some 19 ∧
    find_marker [72, 67, 80, 75, 95, 69, 79, 70] = none := by
  have h := tail_locator_spec (MARKER ++ [1] ++ MARKER ++ [2, 3])
  have h0 : window_occurrence (MARKER ++ [1] ++ MARKER ++ [2, 3]) 0 := by decide
  have h10 : window_occurrence (MARKER ++ [1] ++ MARKER ++ [2, 3]) 10 := by decide
  refine ⟨h0, h10, ?_, ?_⟩
  · apply h.2.2.2.2 0 10 h0 h10 (by decide)
    intro r hr
    have hr13 : r < 13 := by
      have := hr.2.1
      simp only [MARKER, List.length_append, List.length_cons, List.length_nil] at this
      omega
    interval_cases r <;> revert hr <;> decide
  · exact (tail_locator_spec [72, 67, 80, 75, 95, 69, 79, 70]).2.2.1 (by decide)

/-! ## Extraction does not depend on what precedes the package -/

theorem fread_end_shift (pre me : Bytes) (pos n : Nat) :
    fread_end (pre ++ me) (pre.length + pos) n = pre.length + fread_end me pos n := by
  simp only [fread_end, fread_shift, Nat.add_assoc]

theorem Run.shift_consResource (k : Nat) (x : ResRecord) (r : Run) :
    Run.shift k (Run.consResource x r) = Run.consResource x (Run.shift k r) := rfl

theorem Run.shift_withHc (k : Nat) (h : HcFile) (r : Run) :
    Run.shift k (Run.withHc h r) = Run.withHc h (Run.shift k r) := rfl

theorem resource_loop_shift (env : Env) (pre me : Bytes) (n : Nat) :
    ∀ pos, resource_loop env (pre ++ me) n (pre.length + pos) =
      Run.shift pre.length (resource_loop env me n pos) := by
  induction n with
  | zero =>
    intro pos
    simp [resource_loop, Run.shift]
  | succ n ih =>
    intro pos
    rw [resource_loop, resource_loop]
    simp only [Nat.add_assoc, read_u32_le_shift, fread_shift, fread_end_shift]
    cases read_u32_le me pos with
    | error e => rfl
    | ok name_len =>
      simp only
      split
      · rfl
      · split
        · rfl
        · cases read_u32_le me (pos + (4 + name_len)) with
          | error e => rfl
          | ok res_size =>
            simp only
            split
            · rfl
            · rw [Run.shift_consResource]
              have h := ih (pos + (4 + (name_len + (4 + res_size))))
              simp only [Nat.add_assoc] at h
              rw [h]

theorem extract_package_shift (env : Env) (pre me : Bytes) (off : Nat) :
    extract_package env (pre ++ me) (pre.length + off) =
      Run.shift pre.length (extract_package env me off) := by
  unfold extract_package
  simp only [Nat.add_assoc, read_u32_le_shift, fread_shift, fread_end_shift]
  split
  · rfl
  · split
    · rfl
    · cases read_u32_le me (off + 4) with
      | error e => rfl
      | ok version =>
        simp only
        cases read_u32_le me (off + 8) with
        | error e => rfl
        | ok hc_size =>
          simp only
          split
          · rfl
          · split
            · rfl
            · rw [Run.shift_withHc]
              cases read_u32_le me (off + (12 + hc_size)) with
              | error e => rfl
              | ok num_resources =>
                simp only
                have h := resource_loop_shift env pre me num_resources
                  (off + (12 + (hc_size + 4)))
                simp only [Nat.add_assoc] at h
                rw [h]

/-! ## The self-extracting image -/

theorem marker_straddle (C : Bytes) (j : Nat) (h1 : 1 ≤ j) (h2 : j < 9) :
    ((MARKER ++ C).drop j).take 9 ≠ MARKER := by
  intro h
  have hd : (MARKER ++ C).drop j = MARKER.drop j ++ C := by
    rw [List.drop_append_of_le_length]
    simp only [MARKER, List.length_cons, List.length_nil]
    omega
  rw [hd] at h
  interval_cases j <;> simp [MARKER] at h

theorem no_marker_after (S C : Bytes) (hno : ∀ p, p < C.length → ¬ marker_at C p)
    (q : Nat) (hq : S.length < q) : ¬ marker_at (S ++ (MARKER ++ C)) q := by
  rintro ⟨hq2, hq3⟩
  have hML : MARKER.length = 9 := rfl
  simp only [List.length_append, hML] at hq2
  have hqs : q = S.length + (q - S.length) := by omega
  rw [hqs, ← List.drop_drop, List.drop_left] at hq3
  by_cases hj : q - S.length < 9
  · exact marker_straddle C (q - S.length) (by omega) hj hq3
  · have hq9 : q - S.length = MARKER.length + (q - S.length - 9) := by rw [hML]; omega
    rw [hq9, ← List.drop_drop, List.drop_left] at hq3
    exact hno (q - S.length - 9) (by omega) ⟨by omega, hq3⟩

theorem find_marker_image (S C : Bytes) (hlen : C.length + 9 ≤ 65536)
    (hno : ∀ p, p < C.length → ¬ marker_at C p) :
    find_marker (S ++ (MARKER ++ C)) = some (S.length + 9) := by
  rw [find_marker_some_iff]
  have hML : MARKER.length = 9 := rfl
  refine ⟨S.length, rfl, ⟨?_, ?_, ?_⟩, ?_⟩
  · simp only [List.length_append, hML]; omega
  · simp only [List.length_append, hML]; omega
  · rw [List.drop_left]
    have : List.take 9 (MARKER ++ C) = List.take MARKER.length (MARKER ++ C) := rfl
    rw [this, List.take_left]
  · rintro q ⟨_, hq⟩
    by_contra hlt
    exact no_marker_after S C hno q (by omega) hq

theorem find_marker_image_large (S C : Bytes) (hlen : 65536 < C.length + 9)
    (hno : ∀ p, p < C.length → ¬ marker_at C p) :
    find_marker (S ++ (MARKER ++ C)) = none := by
  rw [find_marker_none_iff]
  rintro ⟨q, hq1, hq⟩
  have hML : MARKER.length = 9 := rfl
  simp only [List.length_append, hML] at hq1
  exact no_marker_after S C hno q (by omega) hq

theorem no_marker_of_not_mem (C : Bytes) (h : (95 : Byte) ∉ C) (p : Nat) : ¬ marker_at C p := by
  rintro ⟨_, hp⟩
  have hm : (95 : Byte) ∈ (C.drop p).take 9 := by
    rw [hp]
    decide
  exact h (List.mem_of_mem_drop (List.mem_of_mem_take hm))

theorem large_payload_no_marker (p : Nat) :
    ¬ marker_at (pack (List.replicate 65512 0) []) p := by
  apply no_marker_of_not_mem
  rw [pack_nil _ (by rw [List.length_replicate]; decide)]
  simp only [List.mem_append, List.mem_replicate, List.length_replicate, not_or]
  refine ⟨by decide, by decide, by decide, ?_, by decide⟩
  rintro ⟨_, h⟩
  exact absurd h (by decide)

/-- C5, as amended. Self-extracting image: for every stub byte string `S` and
every container `C` produced by the packer that is at most 65527 bytes long and
in which the marker bytes do not occur, the marker scan of `S ++ "HCPK_EOF:" ++ C`
returns `|S| + 9`, the offset of the first byte of `C`, and the stub run on the
image is the extraction of `C` itself, the cursor being counted from that
offset. -/
theorem self_extracting_image (env : Env) (S P : Bytes) (rs : List (Bytes × Bytes))
    (hlen : (pack P rs).length + 9 ≤ 65536)
    (hno : ∀ p, p < (pack P rs).length → ¬ marker_at (pack P rs) p) :
    find_marker (S ++ MARKER ++ pack P rs) = some (S.length + 9) ∧
    stub_main env (S ++ MARKER ++ pack P rs) =
      Run.shift (S.length + 9) (extract_package env (pack P rs) 0) := by
  have hf := find_marker_image S (pack P rs) hlen hno
  rw [List.append_assoc]
  refine ⟨hf, ?_⟩
  simp only [stub_main, hf]
  have h := extract_package_shift env (S ++ MARKER) (pack P rs) 0
  have hl : (S ++ MARKER).length = S.length + 9 := by
    simp only [List.length_append]; rfl
  rw [hl, Nat.add_zero, List.append_assoc] at h
  exact h

/-- C5 as amended, on a three-byte stub and the container of `PRINT("HI");` with
`icon.bmp`. -/
theorem self_extracting_image_witness :
    (pack scenario_payload scenario_resources).length + 9 ≤ 65536 ∧
    (∀ p, p < (pack scenario_payload scenario_resources).length →
      ¬ marker_at (pack scenario_payload scenario_resources) p) ∧
    find_marker ([1, 2, 3] ++ MARKER ++ pack scenario_payload scenario_resources) = some 12 ∧
    (stub_main scenario_env
      ([1, 2, 3] ++ MARKER ++ pack scenario_payload scenario_resources)).files =
      (extract_package scenario_env (pack scenario_payload scenario_resources) 0).files := by
  have h1 : (pack scenario_payload scenario_resources).length + 9 ≤ 65536 := by decide
  have h2 : ∀ p, p < (pack scenario_payload scenario_resources).length →
      ¬ marker_at (pack scenario_payload scenario_resources) p := by decide
  have h := self_extracting_image scenario_env [1, 2, 3] scenario_payload scenario_resources h1 h2
  refine ⟨h1, h2, h.1, ?_⟩
  rw [h.2]
  rfl

theorem pack_nil_length (P : Bytes) (hP : P.length < 2 ^ 32) :
    (pack P []).length = 16 + P.length := by
  rw [pack_nil P hP]
  simp only [List.length_append, le32_length, MAGIC, List.length_cons, List.length_nil]
  omega

theorem large_payload_length : (List.replicate 65512 (0 : Byte)).length < 2 ^ 32 := by
  rw [List.length_replicate]; decide

/-- C5 as stated fails in two ways: a payload that holds the marker bytes makes
the scan of the image return an offset inside the container, where the stub then
finds no magic, and with a container longer than 65527 bytes (here a payload of
65512 zero bytes) the marker lies before the scanned window and is not found. -/
theorem self_extracting_image_counterexample :
    (find_marker ([] ++ MARKER ++ pack MARKER []) = some 30 ∧
      find_marker ([] ++ MARKER ++ pack MARKER []) ≠ some (([] : Bytes).length + 9) ∧
      (stub_main scenario_env ([] ++ MARKER ++ pack MARKER [])).exit = some .invalidMagic ∧
      (extract_package scenario_env (pack MARKER []) 0).exit = none) ∧
    (find_marker ([] ++ MARKER ++ pack (List.replicate 65512 0) []) = none ∧
      find_marker ([] ++ MARKER ++ pack (List.replicate 65512 0) []) ≠
        some (([] : Bytes).length + 9)) := by
  refine ⟨by decide, ?_⟩
  have hl : 65536 < (pack (List.replicate 65512 0) []).length + 9 := by
    rw [pack_nil_length _ large_payload_length, List.length_replicate]
    decide
  have h := find_marker_image_large [] (pack (List.replicate 65512 0) []) hl
    (fun p _ => large_payload_no_marker p)
  rw [List.append_assoc]
  exact ⟨h, by rw [h]; exact Option.noConfusion⟩

/-! ## Extraction of a stream that holds well-formed records -/

theorem files_of_records (env : Env) (recs : List (Bytes × Bytes)) :
    (recs.map (record_of env)).filterMap ResRecord.file = files_of env recs := by
  induction recs with
  | nil => rfl
  | cons r rest ih =>
    simp only [files_of] at ih
    simp only [List.map_cons, files_of, List.filterMap_cons, ResRecord.file, record_of,
      List.take_length, ih]

theorem files_of_all_open (env : Env) (recs : List (Bytes × Bytes))
    (h : ∀ r ∈ recs, env.canOpen (out_path env.out_dir r.1) = true) :
    files_of env recs = recs.map (fun r => (out_path env.out_dir r.1, r.2)) := by
  induction recs with
  | nil => rfl
  | cons r rest ih =>
    have h1 := h r (List.mem_cons_self _ _)
    have h2 := ih (fun x hx => h x (List.mem_cons_of_mem _ hx))
    simp only [files_of] at h2
    simp only [files_of, List.filterMap_cons, h1, if_true, List.map_cons, h2]

theorem extract_good_records (env : Env) (me pre P B : Bytes) (recs : List (Bytes × Bytes))
    (v n k : Nat)
    (hme : me = pre ++ (MAGIC ++ (le32 v ++ (le32 P.length ++ (P ++ (le32 n ++
      (layout_resources recs ++ B)))))))
    (hv : v < 2 ^ 32) (hP : P.length < 2 ^ 32) (hn : n < 2 ^ 32) (hnk : n = recs.length + k)
    (hgood : ∀ r ∈ recs, 1 ≤ r.1.length ∧ r.1.length ≤ 1000 ∧ r.2.length < 2 ^ 32)
    (hopen : env.canOpen (hc_path env.out_dir) = true) :
    extract_package env me pre.length =
      Run.withHc { hc_size := P.length, hc_buf := P, hc_path := hc_path env.out_dir }
        (Run.prepend (recs.map (record_of env))
          (resource_loop env me k
            (pre.length + 16 + P.length + (layout_resources recs).length))) := by
  rw [extract_header env me pre P (layout_resources recs ++ B) v n hme hv hP hn hopen]
  have hme2 : me = (pre ++ (MAGIC ++ (le32 v ++ (le32 P.length ++ (P ++ le32 n))))) ++
      (layout_resources recs ++ B) := by
    simp only [hme, List.append_assoc]
  have hA : (pre ++ (MAGIC ++ (le32 v ++ (le32 P.length ++ (P ++ le32 n))))).length =
      pre.length + 12 + P.length + 4 := by
    simp only [List.length_append, le32_length, MAGIC, List.length_cons, List.length_nil]
    omega
  have h := resource_loop_good env recs hgood me _ B k hme2
  rw [hA] at h
  rw [hnk, h]
  have hc : pre.length + 12 + P.length + 4 + (layout_resources recs).length =
      pre.length + 16 + P.length + (layout_resources recs).length := by omega
  rw [hc]

/-- C6. Name-length cap: in a stream with a valid header and payload whose
first `i` resource records are well formed (names of 1 to 1000 bytes) and whose
record `i`, below the declared count, has a name length of 0 or above 1000, the
stub stops right after that length field, returns success with the
`suspicious name_len` diagnostic, and has processed exactly the payload and
resources `0..i-1`: each of them whose path opens is written, and all of them
when every path opens. -/
theorem name_length_cap (env : Env) (pre P rest : Bytes) (recs : List (Bytes × Bytes))
    (v n bad : Nat) (hv : v < 2 ^ 32) (hP : P.length < 2 ^ 32) (hn : n < 2 ^ 32)
    (hi : recs.length < n)
    (hgood : ∀ r ∈ recs, 1 ≤ r.1.length ∧ r.1.length ≤ 1000 ∧ r.2.length < 2 ^ 32)
    (hbad : bad = 0 ∨ (1000 < bad ∧ bad < 2 ^ 32))
    (hopen : env.canOpen (hc_path env.out_dir) = true) :
    extract_package env
        (pre ++ (MAGIC ++ le32 v ++ le32 P.length ++ P ++ le32 n ++ layout_resources recs ++
          le32 bad ++ rest)) pre.length =
      { exit := none,
        cursor := pre.length + 16 + P.length + (layout_resources recs).length + 4,
        suspicious := true,
        hc := some { hc_size := P.length, hc_buf := P, hc_path := hc_path env.out_dir },
        resources := recs.map (record_of env) } ∧
    (extract_package env
        (pre ++ (MAGIC ++ le32 v ++ le32 P.length ++ P ++ le32 n ++ layout_resources recs ++
          le32 bad ++ rest)) pre.length).files =
      (hc_path env.out_dir, P) :: files_of env recs ∧
    ((∀ r ∈ recs, env.canOpen (out_path env.out_dir r.1) = true) →
      (extract_package env
        (pre ++ (MAGIC ++ le32 v ++ le32 P.length ++ P ++ le32 n ++ layout_resources recs ++
          le32 bad ++ rest)) pre.length).files =
      (hc_path env.out_dir, P) :: recs.map (fun r => (out_path env.out_dir r.1, r.2))) := by
  obtain ⟨k, hk⟩ : ∃ k, n = recs.length + (k + 1) := ⟨n - recs.length - 1, by omega⟩
  have hme : (pre ++ (MAGIC ++ le32 v ++ le32 P.length ++ P ++ le32 n ++ layout_resources recs ++
      le32 bad ++ rest)) =
      pre ++ (MAGIC ++ (le32 v ++ (le32 P.length ++ (P ++ (le32 n ++
        (layout_resources recs ++ (le32 bad ++ rest))))))) := by
    simp only [List.append_assoc]
  have hme2 : (pre ++ (MAGIC ++ le32 v ++ le32 P.length ++ P ++ le32 n ++ layout_resources recs ++
      le32 bad ++ rest)) =
      (pre ++ (MAGIC ++ (le32 v ++ (le32 P.length ++ (P ++ (le32 n ++
        layout_resources recs)))))) ++ (le32 bad ++ rest) := by
    simp only [List.append_assoc]
  have hA : (pre ++ (MAGIC ++ (le32 v ++ (le32 P.length ++ (P ++ (le32 n ++
      layout_resources recs)))))).length =
      pre.length + 16 + P.length + (layout_resources recs).length := by
    simp only [List.length_append, le32_length, MAGIC, List.length_cons, List.length_nil]
    omega
  have hstop := resource_loop_stop env _ _ rest k bad hme2
    (by rcases hbad with h | h <;> omega) (by rcases hbad with h | h <;> omega)
  rw [hA] at hstop
  have hrun := extract_good_records env _ pre P (le32 bad ++ rest) recs v n (k + 1) hme hv hP hn hk
    hgood hopen
  rw [hstop] at hrun
  have hrun' : extract_package env
      (pre ++ (MAGIC ++ le32 v ++ le32 P.length ++ P ++ le32 n ++ layout_resources recs ++
        le32 bad ++ rest)) pre.length =
      { exit := none,
        cursor := pre.length + 16 + P.length + (layout_resources recs).length + 4,
        suspicious := true,
        hc := some { hc_size := P.length, hc_buf := P, hc_path := hc_path env.out_dir },
        resources := recs.map (record_of env) } := by
    rw [hrun]
    simp [Run.withHc, Run.prepend]
  have hfiles : (extract_package env
      (pre ++ (MAGIC ++ le32 v ++ le32 P.length ++ P ++ le32 n ++ layout_resources recs ++
        le32 bad ++ rest)) pre.length).files = (hc_path env.out_dir, P) :: files_of env recs := by
    rw [hrun']
    simp only [Run.files, Option.map_some', Option.toList_some, HcFile.file, List.take_length,
      files_of_records, List.singleton_append]
  refine ⟨hrun', hfiles, ?_⟩
  intro hall
  rw [hfiles, files_of_all_open env recs hall]

theorem dotted_path_length (n : Nat) (last : Bytes) :
    (dotted_path n last).length = 2 * n + last.length := by
  induction n with
  | zero => simp [dotted_path]
  | succ n ih =>
    simp only [dotted_path, List.length_cons, ih]
    omega

theorem dotted_path_no_nul (n : Nat) (last : Bytes) (h : (0 : Byte) ∉ last) :
    (0 : Byte) ∉ dotted_path n last := by
  induction n with
  | zero => exact h
  | succ n ih =>
    simp only [dotted_path, List.mem_cons, not_or]
    exact ⟨by decide, by decide, ih⟩

theorem boundary_resources_good :
    ∀ r ∈ boundary_resources, 1 ≤ r.1.length ∧ r.1.length ≤ 1000 ∧ r.2.length < 2 ^ 32 := by
  intro r hr
  simp only [boundary_resources, List.mem_singleton] at hr
  subst hr
  simp only [dotted_path_length, List.length_cons, List.length_nil]
  decide

/-- C6 at the boundary: a record with a name of 1000 bytes is processed and
the next record, declaring a name of 1001 bytes, stops the loop with success. -/
theorem name_length_cap_witness :
    boundary_resources.length < 5 ∧
    (∀ r ∈ boundary_resources, 1 ≤ r.1.length ∧ r.1.length ≤ 1000 ∧ r.2.length < 2 ^ 32) ∧
    scenario_env.canOpen (hc_path scenario_env.out_dir) = true ∧
    extract_package scenario_env
        ([] ++ (MAGIC ++ le32 1 ++ le32 scenario_payload.length ++ scenario_payload ++ le32 5 ++
          layout_resources boundary_resources ++ le32 1001 ++ [9, 9])) ([] : Bytes).length =
      { exit := none,
        cursor := ([] : Bytes).length + 16 + scenario_payload.length +
          (layout_resources boundary_resources).length + 4,
        suspicious := true,
        hc := some { hc_size := scenario_payload.length, hc_buf := scenario_payload,
                     hc_path := hc_path scenario_env.out_dir },
        resources := boundary_resources.map (record_of scenario_env) } := by
  have h := name_length_cap scenario_env [] scenario_payload [9, 9] boundary_resources 1 5 1001
    (by decide) (by decide) (by decide) (by decide) boundary_resources_good
    (Or.inr (by decide)) rfl
  exact ⟨by decide, boundary_resources_good, rfl, h.1⟩

/-! ## Round trip -/

theorem pack_length (P : Bytes) (rs : List (Bytes × Bytes)) (hP : P.length < 2 ^ 32)
    (hrs : ∀ r ∈ rs, (0 : Byte) ∉ r.1 ∧ r.1.length < 2 ^ 32 ∧ r.2.length < 2 ^ 32) :
    (pack P rs).length = 16 + P.length + (layout_resources rs).length := by
  rw [pack_eq_layout P rs hP hrs]
  simp only [layout, List.length_append, le32_length, MAGIC, List.length_cons, List.length_nil]
  omega

theorem extract_pack_good (env : Env) (P : Bytes) (rs : List (Bytes × Bytes))
    (hP : P.length < 2 ^ 32) (hk : rs.length < 2 ^ 32)
    (hrs : ∀ r ∈ rs, (0 : Byte) ∉ r.1 ∧ 1 ≤ r.1.length ∧ r.1.length ≤ 1000 ∧
      r.2.length < 2 ^ 32)
    (hopen : env.canOpen (hc_path env.out_dir) = true) :
    extract_package env (pack P rs) 0 =
      { exit := none, cursor := (pack P rs).length, suspicious := false,
        hc := some { hc_size := P.length, hc_buf := P, hc_path := hc_path env.out_dir },
        resources := rs.map (record_of env) } := by
  have hrs' : ∀ r ∈ rs, (0 : Byte) ∉ r.1 ∧ r.1.length < 2 ^ 32 ∧ r.2.length < 2 ^ 32 :=
    fun r hr => ⟨(hrs r hr).1, by have := (hrs r hr).2.2.1; omega, (hrs r hr).2.2.2⟩
  have hgood : ∀ r ∈ rs, 1 ≤ r.1.length ∧ r.1.length ≤ 1000 ∧ r.2.length < 2 ^ 32 :=
    fun r hr => (hrs r hr).2
  have hme : pack P rs =
      [] ++ (MAGIC ++ (le32 1 ++ (le32 P.length ++ (P ++ (le32 rs.length ++
        (layout_resources rs ++ [])))))) := by
    rw [pack_eq_layout P rs hP hrs']
    simp only [layout, List.append_assoc, List.nil_append, List.append_nil]
  have h := extract_good_records env (pack P rs) [] P [] rs 1 rs.length 0 hme (by decide) hP hk
    rfl hgood hopen
  simp only [List.length_nil] at h
  rw [h, pack_length P rs hP hrs', resource_loop]
  simp only [Run.withHc, Run.prepend, List.append_nil, Run.mk.injEq, true_and, and_true]

theorem map_record_of_name_data (env : Env) (rs : List (Bytes × Bytes)) :
    (rs.map (record_of env)).map (fun x => (x.name, x.res_buf)) = rs := by
  induction rs with
  | nil => rfl
  | cons r rest ih =>
    simp only [List.map_cons, ih, record_of]

/-- C1, as amended. Round trip: for a payload shorter than 2^32 bytes and fewer
than 2^32 resources whose names are C strings of 1 to 1000 bytes and whose data
are shorter than 2^32 bytes, extracting the packed container from its first byte
(the payload file being creatable) returns success after consuming the whole
container, reads back exactly the payload and exactly the (name, data) list in
order, and, when every resource path opens, writes the payload file followed by
one file per resource with its data. -/
theorem pack_extract_round_trip (env : Env) (P : Bytes) (rs : List (Bytes × Bytes))
    (hP : P.length < 2 ^ 32) (hk : rs.length < 2 ^ 32)
    (hrs : ∀ r ∈ rs, (0 : Byte) ∉ r.1 ∧ 1 ≤ r.1.length ∧ r.1.length ≤ 1000 ∧
      r.2.length < 2 ^ 32)
    (hopen : env.canOpen (hc_path env.out_dir) = true) :
    (extract_package env (pack P rs) 0).exit = none ∧
    (extract_package env (pack P rs) 0).cursor = (pack P rs).length ∧
    (extract_package env (pack P rs) 0).suspicious = false ∧
    (extract_package env (pack P rs) 0).hc =
      some { hc_size := P.length, hc_buf := P, hc_path := hc_path env.out_dir } ∧
    (extract_package env (pack P rs) 0).resources.map (fun x => (x.name, x.res_buf)) = rs ∧
    (extract_package env (pack P rs) 0).files = (hc_path env.out_dir, P) :: files_of env rs ∧
    ((∀ r ∈ rs, env.canOpen (out_path env.out_dir r.1) = true) →
      (extract_package env (pack P rs) 0).files =
        (hc_path env.out_dir, P) :: rs.map (fun r => (out_path env.out_dir r.1, r.2))) := by
  have h := extract_pack_good env P rs hP hk hrs hopen
  have hfiles : (extract_package env (pack P rs) 0).files =
      (hc_path env.out_dir, P) :: files_of env rs := by
    rw [h]
    simp only [Run.files, Option.map_some', Option.toList_some, HcFile.file, List.take_length,
      files_of_records, List.singleton_append]
  refine ⟨by rw [h], by rw [h], by rw [h], by rw [h], ?_, hfiles, ?_⟩
  · rw [h]
    exact map_record_of_name_data env rs
  · intro hall
    rw [hfiles, files_of_all_open env rs hall]

/-- C1 as amended, on `PRINT("HI");` with the resource `icon.bmp`. -/
theorem pack_extract_round_trip_witness :
    scenario_payload.length < 2 ^ 32 ∧ scenario_resources.length < 2 ^ 32 ∧
    (∀ r ∈ scenario_resources, (0 : Byte) ∉ r.1 ∧ 1 ≤ r.1.length ∧ r.1.length ≤ 1000 ∧
      r.2.length < 2 ^ 32) ∧
    scenario_env.canOpen (hc_path scenario_env.out_dir) = true ∧
    (extract_package scenario_env (pack scenario_payload scenario_resources) 0).exit = none ∧
    (extract_package scenario_env (pack scenario_payload scenario_resources) 0).resources.map
      (fun x => (x.name, x.res_buf)) = scenario_resources ∧
    (extract_package scenario_env (pack scenario_payload scenario_resources) 0).files =
      [([111, 117, 116, 47, 101, 120, 116, 114, 97, 99, 116, 101, 100, 46, 104, 99],
          scenario_payload),
       ([111, 117, 116, 47, 105, 99, 111, 110, 46, 98, 109, 112], [222, 173, 190, 239])] := by
  have hrs : ∀ r ∈ scenario_resources, (0 : Byte) ∉ r.1 ∧ 1 ≤ r.1.length ∧ r.1.length ≤ 1000 ∧
      r.2.length < 2 ^ 32 := by decide
  have h := pack_extract_round_trip scenario_env scenario_payload scenario_resources
    (by decide) (by decide) hrs rfl
  refine ⟨by decide, by decide, hrs, rfl, h.1, h.2.2.2.2.1, ?_⟩
  rw [h.2.2.2.2.2.2 (by decide)]
  decide

theorem long_name_resources_ok :
    ∀ r ∈ long_name_resources, (0 : Byte) ∉ r.1 ∧ r.1.length < 2 ^ 32 ∧ r.2.length < 2 ^ 32 := by
  intro r hr
  simp only [long_name_resources, List.mem_singleton] at hr
  subst hr
  refine ⟨?_, ?_, ?_⟩
  · exact dotted_path_no_nul 500 [102] (by decide)
  · simp only [dotted_path_length, List.length_cons, List.length_nil]; decide
  · decide

theorem read_file_huge_payload : read_file huge_payload = [] := by
  have hl : huge_payload.length = 2 ^ 32 := by
    rw [huge_payload, List.length_replicate]
  rw [read_file, read_file_size, hl, Nat.mod_self, List.take_zero]

theorem pack_huge_payload : pack huge_payload [] = pack [] [] := by
  have hs : read_file_size huge_payload = 0 := by
    rw [read_file_size, huge_payload, List.length_replicate, Nat.mod_self]
  rw [pack, hs, read_file_huge_payload]
  rfl

theorem huge_payload_ne_nil : ([] : Bytes) ≠ huge_payload := by
  intro h
  have hl := congrArg List.length h
  rw [huge_payload, List.length_replicate] at hl
  exact absurd hl (by decide)

/-- C1 as stated fails: a resource whose name is a path of 1001 bytes is packed,
but extraction of that container stops at its name length, so no resource is read
back and only the payload file is written; and a payload of 2^32 bytes is packed
with the length field 0, so an empty payload is read back. -/
theorem pack_extract_round_trip_counterexample :
    ((extract_package scenario_env (pack scenario_payload long_name_resources) 0).resources.map
        (fun x => (x.name, x.res_buf)) ≠ long_name_resources ∧
      (extract_package scenario_env (pack scenario_payload long_name_resources) 0).resources
        = [] ∧
      (extract_package scenario_env (pack scenario_payload long_name_resources) 0).files =
        [(hc_path scenario_env.out_dir, scenario_payload)]) ∧
    ((extract_package scenario_env (pack huge_payload []) 0).hc.map HcFile.hc_buf = some [] ∧
      (extract_package scenario_env (pack huge_payload []) 0).hc.map HcFile.hc_buf ≠
        some huge_payload) := by
  have hhuge : (extract_package scenario_env (pack huge_payload []) 0).hc.map HcFile.hc_buf
        = some [] ∧
      (extract_package scenario_env (pack huge_payload []) 0).hc.map HcFile.hc_buf ≠
        some huge_payload := by
    rw [pack_huge_payload]
    have h : (extract_package scenario_env (pack [] []) 0).hc.map HcFile.hc_buf = some [] := by
      decide
    rw [h]
    exact ⟨rfl, fun hc => huge_payload_ne_nil (Option.some.inj hc)⟩
  refine ⟨?_, hhuge⟩
  have hme : pack scenario_payload long_name_resources =
      [] ++ (MAGIC ++ (le32 1 ++ (le32 scenario_payload.length ++ (scenario_payload ++
        (le32 1 ++ (layout_resources [] ++ layout_resources long_name_resources)))))) := by
    rw [pack_eq_layout scenario_payload long_name_resources (by decide) long_name_resources_ok]
    simp only [layout, List.append_assoc, List.nil_append, layout_resources, long_name_resources,
      List.length_cons, List.length_nil]
  have h : extract_package scenario_env (pack scenario_payload long_name_resources) 0 =
      Run.withHc { hc_size := scenario_payload.length, hc_buf := scenario_payload,
                   hc_path := hc_path scenario_env.out_dir }
        (Run.prepend []
          (resource_loop scenario_env (pack scenario_payload long_name_resources) 1 28)) :=
    extract_good_records scenario_env (pack scenario_payload long_name_resources) []
      scenario_payload (layout_resources long_name_resources) [] 1 1 1 hme (by decide)
      (by decide) (by decide) rfl (by simp) rfl
  have hme2 : pack scenario_payload long_name_resources =
      ([] ++ (MAGIC ++ (le32 1 ++ (le32 scenario_payload.length ++ (scenario_payload ++
        le32 1))))) ++ (le32 1001 ++ (dotted_path 500 [102] ++ (le32 2 ++ [1, 2]))) := by
    rw [hme]
    simp only [layout_resources, long_name_resources, List.append_assoc, List.nil_append,
      dotted_path_length, List.length_cons, List.length_nil, List.append_nil]
  have hstop0 := resource_loop_stop scenario_env (pack scenario_payload long_name_resources)
    ([] ++ (MAGIC ++ (le32 1 ++ (le32 scenario_payload.length ++ (scenario_payload ++
      le32 1))))) (dotted_path 500 [102] ++ (le32 2 ++ [1, 2]))
    0 1001 hme2 (by decide) (Or.inr (by decide))
  have hA : ([] ++ (MAGIC ++ (le32 1 ++ (le32 scenario_payload.length ++ (scenario_payload ++
      le32 1))))).length = 28 := by decide
  rw [hA] at hstop0
  have hstop : resource_loop scenario_env (pack scenario_payload long_name_resources) 1 28 =
      { exit := none, cursor := 32, suspicious := true, hc := none, resources := [] } := hstop0
  rw [hstop] at h
  have hres : (extract_package scenario_env
      (pack scenario_payload long_name_resources) 0).resources = [] := by
    rw [h]
    rfl
  have hhc : (extract_package scenario_env
      (pack scenario_payload long_name_resources) 0).hc =
      some { hc_size := scenario_payload.length, hc_buf := scenario_payload,
             hc_path := hc_path scenario_env.out_dir } := by
    rw [h]
    rfl
  refine ⟨?_, hres, ?_⟩
  · rw [hres]
    decide
  · simp only [Run.files, hres, hhc]
    decide

/-! ## The packer output for arbitrary arguments -/

theorem strlen_le_length (str : Bytes) : strlen str ≤ str.length := by
  unfold strlen cstr
  exact (List.takeWhile_sublist _).length_le

theorem read_file_length (content : Bytes) :
    (read_file content).length = content.length % 2 ^ 32 := by
  simp only [read_file, read_file_size, List.length_take]
  have := Nat.mod_le content.length (2 ^ 32)
  omega

theorem stored_name_length (arg : Bytes × Bytes) :
    (stored arg).1.length = strlen arg.1 % 2 ^ 32 := by
  simp only [stored, List.length_take]
  have h1 := Nat.mod_le (strlen arg.1) (2 ^ 32)
  have h2 := strlen_le_length arg.1
  omega

theorem stored_lengths (arg : Bytes × Bytes) :
    (stored arg).1.length < 2 ^ 32 ∧ (stored arg).2.length < 2 ^ 32 := by
  refine ⟨?_, ?_⟩
  · rw [stored_name_length]
    exact Nat.mod_lt _ (by decide)
  · simp only [stored, read_file_length]
    exact Nat.mod_lt _ (by decide)

theorem layout_resources_cons (x : Bytes × Bytes) (rest : List (Bytes × Bytes)) :
    layout_resources (x :: rest) =
      le32 x.1.length ++ x.1 ++ le32 x.2.length ++ x.2 ++ layout_resources rest := by
  obtain ⟨n, d⟩ := x
  rfl

theorem read_file_take (content : Bytes) :
    (read_file content).take (content.length % 2 ^ 32) = read_file content := by
  apply List.take_of_length_le
  rw [read_file_length]

theorem write_resource_stored (arg : Bytes × Bytes) :
    write_resource (load_resource arg) =
      le32 (stored arg).1.length ++ (stored arg).1 ++ le32 (stored arg).2.length ++
        (stored arg).2 := by
  rw [stored_name_length]
  simp only [write_resource, load_resource, stored, read_file_length, read_file_size,
    write_uint32_eq_le32, read_file_take]

theorem write_resources_stored (rs : List (Bytes × Bytes)) :
    write_resources (rs.map load_resource) = layout_resources (rs.map stored) := by
  induction rs with
  | nil => rfl
  | cons r rest ih =>
    rw [List.map_cons, List.map_cons, write_resources, write_resource_stored, ih,
      layout_resources_cons]

theorem pack_eq_layout_stored (P : Bytes) (rs : List (Bytes × Bytes)) :
    pack P rs =
      MAGIC ++ (le32 1 ++ (le32 (read_file P).length ++ (read_file P ++ (le32 rs.length ++
        layout_resources (rs.map stored))))) := by
  simp only [pack, write_package, write_resources_stored, write_uint32_eq_le32,
    List.length_map, VERSION, read_file_length, read_file_size, List.append_assoc,
    read_file_take]

theorem layout_resources_append (a b : List (Bytes × Bytes)) :
    layout_resources (a ++ b) = layout_resources a ++ layout_resources b := by
  induction a with
  | nil => rfl
  | cons r rest ih =>
    rw [List.cons_append, layout_resources_cons, layout_resources_cons, ih]
    simp only [List.append_assoc]

theorem split_at_first_bad (recs : List (Bytes × Bytes)) :
    ∃ good rest, recs = good ++ rest ∧
      (∀ r ∈ good, 1 ≤ r.1.length ∧ r.1.length ≤ 1000) ∧
      (rest = [] ∨ ∃ b rest', rest = b :: rest' ∧ (b.1.length = 0 ∨ b.1.length > 1000)) := by
  induction recs with
  | nil => exact ⟨[], [], rfl, by simp, Or.inl rfl⟩
  | cons x xs ih =>
    by_cases hx : 1 ≤ x.1.length ∧ x.1.length ≤ 1000
    · obtain ⟨good, rest, h1, h2, h3⟩ := ih
      refine ⟨x :: good, rest, by rw [h1]; rfl, ?_, h3⟩
      intro r hr
      rcases List.mem_cons.1 hr with h | h
      · rw [h]; exact hx
      · exact h2 r h
    · exact ⟨[], x :: xs, rfl, by simp, Or.inr ⟨x, xs, rfl, by omega⟩⟩

theorem extract_layout_total (env : Env) (P : Bytes) (recs : List (Bytes × Bytes))
    (hP : P.length < 2 ^ 32) (hn : recs.length < 2 ^ 32)
    (hlen : ∀ r ∈ recs, r.1.length < 2 ^ 32 ∧ r.2.length < 2 ^ 32)
    (hopen : env.canOpen (hc_path env.out_dir) = true) (me : Bytes)
    (hme : me = MAGIC ++ (le32 1 ++ (le32 P.length ++ (P ++ (le32 recs.length ++
      layout_resources recs))))) :
    (extract_package env me 0).exit = none ∧
      ((extract_package env me 0).suspicious = true ∨
        (extract_package env me 0).cursor = me.length) := by
  obtain ⟨good, rest, hsplit, hgood, hrest⟩ := split_at_first_bad recs
  have hgood' : ∀ r ∈ good, 1 ≤ r.1.length ∧ r.1.length ≤ 1000 ∧ r.2.length < 2 ^ 32 := by
    intro r hr
    have h1 := hgood r hr
    have h2 := hlen r (by rw [hsplit]; exact List.mem_append_left _ hr)
    exact ⟨h1.1, h1.2, h2.2⟩
  have hme1 : me = [] ++ (MAGIC ++ (le32 1 ++ (le32 P.length ++ (P ++ (le32 recs.length ++
      (layout_resources good ++ layout_resources rest)))))) := by
    rw [hme, hsplit, layout_resources_append, List.nil_append]
  have hcount : recs.length = good.length + rest.length := by
    rw [hsplit, List.length_append]
  have h : extract_package env me 0 = _ :=
    extract_good_records env me [] P (layout_resources rest) good 1 recs.length rest.length
      hme1 (by decide) hP hn hcount hgood' hopen
  have hlenme : me.length = 16 + P.length + (layout_resources good).length +
      (layout_resources rest).length := by
    rw [hme1]
    simp only [List.length_append, le32_length, MAGIC, List.length_cons, List.length_nil]
    omega
  rcases hrest with hnil | ⟨b, rest', hb, hbad⟩
  · subst hnil
    rw [h]
    simp only [List.length_nil, resource_loop, Run.withHc, Run.prepend, layout_resources,
      true_and] at hlenme ⊢
    right
    omega
  · have hb2 := hlen b (by rw [hsplit, hb]; simp)
    have hme2 : me = ([] ++ (MAGIC ++ (le32 1 ++ (le32 P.length ++ (P ++ (le32 recs.length ++
        layout_resources good)))))) ++
        (le32 b.1.length ++ (b.1 ++ (le32 b.2.length ++ (b.2 ++ layout_resources rest')))) := by
      rw [hme1, hb, layout_resources_cons]
      simp only [List.append_assoc]
    have hA : ([] ++ (MAGIC ++ (le32 1 ++ (le32 P.length ++ (P ++ (le32 recs.length ++
        layout_resources good)))))).length =
        ([] : Bytes).length + 16 + P.length + (layout_resources good).length := by
      simp only [List.length_append, le32_length, MAGIC, List.length_cons, List.length_nil]
      omega
    have hstop := resource_loop_stop env me _ _ rest'.length b.1.length hme2 hb2.1
      (by omega)
    rw [hA] at hstop
    have hk : rest.length = rest'.length + 1 := by rw [hb]; rfl
    rw [hk, hstop] at h
    rw [h]
    simp only [Run.withHc, Run.prepend, true_and]
    left
    trivial

/-! ## Runs on a shortened input -/

theorem read_u32_le_ok_length (me : Bytes) (pos v : Nat) (h : read_u32_le me pos = .ok v) :
    (fread me pos 4).length = 4 := by
  unfold read_u32_le at h
  split at h
  · next heq => rw [heq]; rfl
  · cases h

theorem read_u32_le_ok_bound (me : Bytes) (pos v : Nat) (h : read_u32_le me pos = .ok v) :
    pos + 4 ≤ me.length := by
  have hl := read_u32_le_ok_length me pos v h
  rw [fread_length] at hl
  omega

theorem fread_append_of_full (s t : Bytes) (pos n : Nat) (h : (fread s pos n).length = n) :
    fread (s ++ t) pos n = fread s pos n := by
  by_cases hn : n = 0
  · subst hn
    simp [fread]
  · rw [fread_length] at h
    have hpos : pos ≤ s.length := by omega
    simp only [fread]
    rw [List.drop_append_of_le_length hpos, List.take_append_of_le_length]
    rw [List.length_drop]
    omega

theorem read_u32_le_append (s t : Bytes) (pos v : Nat) (h : read_u32_le s pos = .ok v) :
    read_u32_le (s ++ t) pos = .ok v := by
  have hl := read_u32_le_ok_length s pos v h
  unfold read_u32_le at h ⊢
  rw [fread_append_of_full s t pos 4 hl]
  exact h

theorem fread_end_le (me : Bytes) (pos n : Nat) (h : pos ≤ me.length) :
    fread_end me pos n ≤ me.length := by
  rw [fread_end, fread_length]
  omega

theorem fread_full_bound (me : Bytes) (pos n : Nat) (hpos : pos ≤ me.length)
    (h : (fread me pos n).length = n) : pos + n ≤ me.length := by
  rw [fread_length] at h
  omega

theorem resource_loop_cursor_le (env : Env) (me : Bytes) (n : Nat) :
    ∀ pos, pos ≤ me.length → (resource_loop env me n pos).cursor ≤ me.length := by
  induction n with
  | zero =>
    intro pos hpos
    simpa [resource_loop] using hpos
  | succ n ih =>
    intro pos hpos
    rw [resource_loop]
    cases h1 : read_u32_le me pos with
    | error e => exact fread_end_le me pos 4 hpos
    | ok name_len =>
      have b1 := read_u32_le_ok_bound me pos name_len h1
      simp only
      split
      · exact b1
      · split
        · exact fread_end_le me (pos + 4) name_len b1
        · next hname =>
          have b2 := fread_full_bound me (pos + 4) name_len b1 (by simpa using hname)
          cases h2 : read_u32_le me (pos + 4 + name_len) with
          | error e => exact fread_end_le me _ 4 b2
          | ok res_size =>
            have b3 := read_u32_le_ok_bound me _ res_size h2
            simp only
            split
            · exact fread_end_le me _ res_size b3
            · next hres =>
              have b4 := fread_full_bound me _ res_size b3 (by simpa using hres)
              exact ih _ b4

theorem extract_package_cursor_le (env : Env) (me : Bytes) (off : Nat) (hoff : off ≤ me.length) :
    (extract_package env me off).cursor ≤ me.length := by
  unfold extract_package
  simp only
  split
  · exact fread_end_le me off 4 hoff
  · next hmagic =>
    have b0 := fread_full_bound me off 4 hoff (by simpa using hmagic)
    split
    · exact b0
    · cases h1 : read_u32_le me (off + 4) with
      | error e => exact fread_end_le me _ 4 b0
      | ok version =>
        have b1 := read_u32_le_ok_bound me _ version h1
        simp only
        cases h2 : read_u32_le me (off + 8) with
        | error e => exact fread_end_le me _ 4 (by omega)
        | ok hc_size =>
          have b2 := read_u32_le_ok_bound me _ hc_size h2
          simp only
          split
          · exact fread_end_le me _ hc_size (by omega)
          · next hhc =>
            have b3 := fread_full_bound me (off + 12) hc_size (by omega) (by simpa using hhc)
            split
            · exact b3
            · cases h3 : read_u32_le me (off + 12 + hc_size) with
              | error e => exact fread_end_le me _ 4 b3
              | ok num_resources =>
                have b4 := read_u32_le_ok_bound me _ num_resources h3
                exact resource_loop_cursor_le env me num_resources _ b4

theorem resource_loop_lengths (env : Env) (me : Bytes) (n : Nat) :
    ∀ pos, ∀ x ∈ (resource_loop env me n pos).resources,
      x.name.length = x.name_len ∧ x.res_buf.length = x.res_size := by
  induction n with
  | zero =>
    intro pos x hx
    simp [resource_loop] at hx
  | succ n ih =>
    intro pos x hx
    rw [resource_loop] at hx
    cases h1 : read_u32_le me pos with
    | error e =>
      rw [h1] at hx
      simp [Run.fatal] at hx
    | ok name_len =>
      rw [h1] at hx
      simp only at hx
      split at hx
      · simp at hx
      · split at hx
        · simp [Run.fatal] at hx
        · next hname =>
          cases h2 : read_u32_le me (pos + 4 + name_len) with
          | error e =>
            rw [h2] at hx
            simp [Run.fatal] at hx
          | ok res_size =>
            rw [h2] at hx
            simp only at hx
            split at hx
            · simp [Run.fatal] at hx
            · next hres =>
              simp only [Run.consResource, List.mem_cons] at hx
              rcases hx with hx | hx
              · subst hx
                exact ⟨by simpa using hname, by simpa using hres⟩
              · exact ih _ x hx

theorem resource_loop_hc (env : Env) (me : Bytes) (n : Nat) :
    ∀ pos, (resource_loop env me n pos).hc = none := by
  induction n with
  | zero => intro pos; rfl
  | succ n ih =>
    intro pos
    rw [resource_loop]
    cases read_u32_le me pos with
    | error e => rfl
    | ok name_len =>
      simp only
      split
      · rfl
      · split
        · rfl
        · cases read_u32_le me (pos + 4 + name_len) with
          | error e => rfl
          | ok res_size =>
            simp only
            split
            · rfl
            · exact ih _

theorem Run.cutOf_fatal (e : Fatal) (c : Nat) (full : Run) (he : e.truncatedInput = true)
    (hhc : full.hc = none) : Run.cutOf (Run.fatal e c) full :=
  Or.inr ⟨⟨e, rfl, he⟩, hhc.symm, List.nil_prefix⟩

theorem Run.cutOf_consResource (x : ResRecord) (r full : Run) (h : Run.cutOf r full) :
    Run.cutOf (Run.consResource x r) (Run.consResource x full) := by
  rcases h with h | ⟨he, hhc, hres⟩
  · rw [h]; exact Or.inl rfl
  · refine Or.inr ⟨he, hhc, ?_⟩
    simp only [Run.consResource]
    exact (List.prefix_cons_inj x).2 hres

theorem read_u32_le_error (me : Bytes) (pos : Nat) (e : Fatal)
    (h : read_u32_le me pos = .error e) : e = .read_u32_le := by
  unfold read_u32_le at h
  split at h
  · cases h
  · cases h; rfl

theorem resource_loop_cutOf (env : Env) (s t : Bytes) (n : Nat) :
    ∀ pos, Run.cutOf (resource_loop env s n pos) (resource_loop env (s ++ t) n pos) := by
  induction n with
  | zero =>
    intro pos
    exact Or.inl rfl
  | succ n ih =>
    intro pos
    have hhc := resource_loop_hc env (s ++ t) (n + 1) pos
    generalize hF : resource_loop env (s ++ t) (n + 1) pos = F at hhc
    rw [resource_loop] at hF
    rw [resource_loop]
    cases h1 : read_u32_le s pos with
    | error e =>
      have he := read_u32_le_error s pos e h1
      subst he
      exact Run.cutOf_fatal _ _ _ rfl hhc
    | ok name_len =>
      rw [read_u32_le_append s t pos name_len h1] at hF
      simp only at hF ⊢
      split
      · next hbad =>
        rw [if_pos hbad] at hF
        rw [← hF]
        exact Or.inl rfl
      · next hok =>
        rw [if_neg hok] at hF
        split
        · exact Run.cutOf_fatal _ _ _ rfl hhc
        · next hname =>
          have hn : (fread s (pos + 4) name_len).length = name_len := by simpa using hname
          rw [fread_append_of_full s t _ _ hn, if_neg hname] at hF
          cases h2 : read_u32_le s (pos + 4 + name_len) with
          | error e =>
            have he := read_u32_le_error s _ e h2
            subst he
            exact Run.cutOf_fatal _ _ _ rfl hhc
          | ok res_size =>
            rw [read_u32_le_append s t _ res_size h2] at hF
            simp only at hF ⊢
            split
            · exact Run.cutOf_fatal _ _ _ rfl hhc
            · next hres =>
              have hr : (fread s (pos + 4 + name_len + 4) res_size).length = res_size := by
                simpa using hres
              rw [fread_append_of_full s t _ _ hr, if_neg hres] at hF
              rw [← hF]
              exact Run.cutOf_consResource _ _ _ (ih _)

theorem Run.withHc_files (h : HcFile) (r : Run) :
    (Run.withHc h r).files = h.file :: r.resources.filterMap ResRecord.file := rfl

theorem Run.withHc_files_prefix (h : HcFile) (r full : Run)
    (hres : r.resources <+: full.resources) :
    (Run.withHc h r).files <+: (Run.withHc h full).files := by
  rw [Run.withHc_files, Run.withHc_files]
  exact (List.prefix_cons_inj _).2 (List.IsPrefix.filterMap _ hres)

theorem extract_package_cut (env : Env) (s t : Bytes) (off : Nat) :
    extract_package env s off = extract_package env (s ++ t) off ∨
      ((∃ e, (extract_package env s off).exit = some e ∧ e.truncatedInput = true) ∧
        (extract_package env s off).files <+: (extract_package env (s ++ t) off).files) := by
  generalize hF : extract_package env (s ++ t) off = F
  unfold extract_package at hF ⊢
  simp only at hF ⊢
  split
  · exact Or.inr ⟨⟨_, rfl, rfl⟩, List.nil_prefix⟩
  · next hmagic =>
    have hm : (fread s off 4).length = 4 := by simpa using hmagic
    rw [fread_append_of_full s t _ _ hm, if_neg hmagic] at hF
    split
    · next hne =>
      rw [if_pos hne] at hF
      exact Or.inl hF
    · next heq =>
      rw [if_neg heq] at hF
      cases h1 : read_u32_le s (off + 4) with
      | error e =>
        have he := read_u32_le_error s _ e h1
        subst he
        exact Or.inr ⟨⟨_, rfl, rfl⟩, List.nil_prefix⟩
      | ok version =>
        rw [read_u32_le_append s t _ version h1] at hF
        simp only at hF ⊢
        cases h2 : read_u32_le s (off + 8) with
        | error e =>
          have he := read_u32_le_error s _ e h2
          subst he
          exact Or.inr ⟨⟨_, rfl, rfl⟩, List.nil_prefix⟩
        | ok hc_size =>
          rw [read_u32_le_append s t _ hc_size h2] at hF
          simp only at hF ⊢
          split
          · exact Or.inr ⟨⟨_, rfl, rfl⟩, List.nil_prefix⟩
          · next hhc =>
            have hl : (fread s (off + 12) hc_size).length = hc_size := by simpa using hhc
            rw [fread_append_of_full s t _ _ hl, if_neg hhc] at hF
            split
            · next hno =>
              rw [if_pos hno] at hF
              exact Or.inl hF
            · next hyes =>
              rw [if_neg hyes] at hF
              cases h3 : read_u32_le s (off + 12 + hc_size) with
              | error e =>
                have he := read_u32_le_error s _ e h3
                subst he
                right
                refine ⟨⟨_, rfl, rfl⟩, ?_⟩
                rw [← hF]
                exact Run.withHc_files_prefix _ _ _ List.nil_prefix
              | ok num_resources =>
                rw [read_u32_le_append s t _ num_resources h3] at hF
                simp only at hF ⊢
                rcases resource_loop_cutOf env s t num_resources (off + 12 + hc_size + 4) with
                  hcut | ⟨⟨e, he1, he2⟩, _, hres⟩
                · left
                  rw [← hF, hcut]
                · right
                  refine ⟨⟨e, he1, he2⟩, ?_⟩
                  rw [← hF]
                  exact Run.withHc_files_prefix _ _ _ hres

theorem extract_package_lengths (env : Env) (me : Bytes) (off : Nat) :
    (∀ h, (extract_package env me off).hc = some h → h.hc_buf.length = h.hc_size) ∧
    (∀ x ∈ (extract_package env me off).resources,
      x.name.length = x.name_len ∧ x.res_buf.length = x.res_size) := by
  unfold extract_package
  simp only
  split
  · exact ⟨fun h hh => (by cases hh), fun x hx => (by cases hx)⟩
  · split
    · exact ⟨fun h hh => (by cases hh), fun x hx => (by cases hx)⟩
    · cases read_u32_le me (off + 4) with
      | error e => exact ⟨fun h hh => (by cases hh), fun x hx => (by cases hx)⟩
      | ok version =>
        simp only
        cases read_u32_le me (off + 8) with
        | error e => exact ⟨fun h hh => (by cases hh), fun x hx => (by cases hx)⟩
        | ok hc_size =>
          simp only
          split
          · exact ⟨fun h hh => (by cases hh), fun x hx => (by cases hx)⟩
          · next hhc =>
            split
            · exact ⟨fun h hh => (by cases hh), fun x hx => (by cases hx)⟩
            · refine ⟨?_, ?_⟩
              · intro h hh
                simp only [Run.withHc, Option.some.injEq] at hh
                subst hh
                simpa using hhc
              · cases read_u32_le me (off + 12 + hc_size) with
                | error e => exact fun x hx => by cases hx
                | ok num_resources =>
                  exact resource_loop_lengths env me num_resources _

/-! ## Extraction does not depend on the version field -/

theorem fread_congr (s1 s2 : Bytes) (p0 pos n : Nat) (h : s1.drop p0 = s2.drop p0)
    (hp : p0 ≤ pos) : fread s1 pos n = fread s2 pos n := by
  have hpos : pos = p0 + (pos - p0) := by omega
  simp only [fread]
  rw [hpos, ← List.drop_drop, ← List.drop_drop, h]

theorem read_u32_le_congr (s1 s2 : Bytes) (p0 pos : Nat) (h : s1.drop p0 = s2.drop p0)
    (hp : p0 ≤ pos) : read_u32_le s1 pos = read_u32_le s2 pos := by
  simp only [read_u32_le, fread_congr s1 s2 p0 pos 4 h hp]

theorem fread_end_congr (s1 s2 : Bytes) (p0 pos n : Nat) (h : s1.drop p0 = s2.drop p0)
    (hp : p0 ≤ pos) : fread_end s1 pos n = fread_end s2 pos n := by
  simp only [fread_end, fread_congr s1 s2 p0 pos n h hp]

theorem resource_loop_congr (env : Env) (s1 s2 : Bytes) (p0 : Nat)
    (h : s1.drop p0 = s2.drop p0) (n : Nat) :
    ∀ pos, p0 ≤ pos → resource_loop env s1 n pos = resource_loop env s2 n pos := by
  induction n with
  | zero =>
    intro pos _
    rfl
  | succ n ih =>
    intro pos hp
    rw [resource_loop, resource_loop]
    rw [read_u32_le_congr s1 s2 p0 pos h hp, fread_end_congr s1 s2 p0 pos 4 h hp]
    cases read_u32_le s2 pos with
    | error e => rfl
    | ok name_len =>
      simp only
      rw [fread_congr s1 s2 p0 (pos + 4) name_len h (by omega),
        fread_end_congr s1 s2 p0 (pos + 4) name_len h (by omega),
        read_u32_le_congr s1 s2 p0 (pos + 4 + name_len) h (by omega),
        fread_end_congr s1 s2 p0 (pos + 4 + name_len) 4 h (by omega)]
      split
      · rfl
      · split
        · rfl
        · cases read_u32_le s2 (pos + 4 + name_len) with
          | error e => rfl
          | ok res_size =>
            simp only
            rw [fread_congr s1 s2 p0 (pos + 4 + name_len + 4) res_size h (by omega),
              fread_end_congr s1 s2 p0 (pos + 4 + name_len + 4) res_size h (by omega),
              ih (pos + 4 + name_len + 4 + res_size) (by omega)]

theorem read_u32_le_of_length (me : Bytes) (pos : Nat) (h : (fread me pos 4).length = 4) :
    ∃ x, read_u32_le me pos = .ok x := by
  unfold read_u32_le
  match hf : fread me pos 4, h with
  | [b0, b1, b2, b3], _ => exact ⟨_, rfl⟩

theorem extract_package_version (env : Env) (s1 s2 : Bytes) (off : Nat)
    (hm : fread s1 off 4 = fread s2 off 4)
    (hv1 : (fread s1 (off + 4) 4).length = 4) (hv2 : (fread s2 (off + 4) 4).length = 4)
    (hd : s1.drop (off + 8) = s2.drop (off + 8)) :
    extract_package env s1 off = extract_package env s2 off := by
  obtain ⟨x1, hx1⟩ := read_u32_le_of_length s1 (off + 4) hv1
  obtain ⟨x2, hx2⟩ := read_u32_le_of_length s2 (off + 4) hv2
  have he0 : fread_end s1 off 4 = fread_end s2 off 4 := by
    simp only [fread_end, hm]
  unfold extract_package
  simp only [hm, he0, hx1, hx2]
  rw [read_u32_le_congr s1 s2 (off + 8) (off + 8) hd (Nat.le_refl _),
    fread_end_congr s1 s2 (off + 8) (off + 8) 4 hd (Nat.le_refl _)]
  split
  · rfl
  · split
    · rfl
    · cases read_u32_le s2 (off + 8) with
      | error e => rfl
      | ok hc_size =>
        simp only
        rw [fread_congr s1 s2 (off + 8) (off + 12) hc_size hd (by omega),
          fread_end_congr s1 s2 (off + 8) (off + 12) hc_size hd (by omega),
          read_u32_le_congr s1 s2 (off + 8) (off + 12 + hc_size) hd (by omega),
          fread_end_congr s1 s2 (off + 8) (off + 12 + hc_size) 4 hd (by omega)]
        split
        · rfl
        · split
          · rfl
          · cases read_u32_le s2 (off + 12 + hc_size) with
            | error e => rfl
            | ok num_resources =>
              simp only
              rw [resource_loop_congr env s1 s2 (off + 8) hd num_resources
                (off + 12 + hc_size + 4) (by omega)]

theorem fread_in_prefix (A X : Bytes) (pos n : Nat) (h : pos + n ≤ A.length) :
    fread (A ++ X) pos n = fread A pos n := by
  simp only [fread]
  rw [List.drop_append_of_le_length (by omega), List.take_append_of_le_length]
  rw [List.length_drop]
  omega

/-- C13. Version is ignored: two streams that differ only in the four version
bytes after the magic at the start offset give the same run, with the same exit,
cursor and files, so no version value is rejected; the whole stub likewise runs
the same on both whenever its marker scan finds that offset in both. -/
theorem version_ignored (env : Env) (A v1 v2 B : Bytes) (off : Nat)
    (hA : A.length = off + 4) (h1 : v1.length = 4) (h2 : v2.length = 4) :
    extract_package env (A ++ v1 ++ B) off = extract_package env (A ++ v2 ++ B) off ∧
    (extract_package env (A ++ v1 ++ B) off).files =
      (extract_package env (A ++ v2 ++ B) off).files ∧
    (extract_package env (A ++ v1 ++ B) off).exit =
      (extract_package env (A ++ v2 ++ B) off).exit ∧
    (find_marker (A ++ v1 ++ B) = some off → find_marker (A ++ v2 ++ B) = some off →
      stub_main env (A ++ v1 ++ B) = stub_main env (A ++ v2 ++ B)) := by
  have key : ∀ v : Bytes, v.length = 4 →
      fread (A ++ v ++ B) off 4 = fread A off 4 ∧
      (fread (A ++ v ++ B) (off + 4) 4).length = 4 ∧
      (A ++ v ++ B).drop (off + 8) = B := by
    intro v hv
    refine ⟨?_, ?_, ?_⟩
    · rw [List.append_assoc]
      exact fread_in_prefix A (v ++ B) off 4 (by omega)
    · rw [fread_at (A ++ v ++ B) A v B (off + 4) 4 (List.append_assoc _ _ _) hA.symm hv.symm]
      exact hv
    · have hl : (A ++ v).length = off + 8 := by
        rw [List.length_append]; omega
      rw [← hl, List.drop_left]
  obtain ⟨a1, b1, c1⟩ := key v1 h1
  obtain ⟨a2, b2, c2⟩ := key v2 h2
  have heq := extract_package_version env (A ++ v1 ++ B) (A ++ v2 ++ B) off
    (by rw [a1, a2]) b1 b2 (by rw [c1, c2])
  refine ⟨heq, by rw [heq], by rw [heq], ?_⟩
  intro hf1 hf2
  simp only [stub_main, hf1, hf2, heq]

/-- C13 on the container of `PRINT("HI");` with `icon.bmp`: with the version
bytes FF FF FF FF in place of 01 00 00 00 it extracts to the same two files. -/
theorem version_ignored_witness :
    (MAGIC : Bytes).length = 0 + 4 ∧ (le32 1).length = 4 ∧
    ([255, 255, 255, 255] : Bytes).length = 4 ∧
    MAGIC ++ le32 1 ++ (pack scenario_payload scenario_resources).drop 8 =
      pack scenario_payload scenario_resources ∧
    extract_package scenario_env
        (MAGIC ++ [255, 255, 255, 255] ++ (pack scenario_payload scenario_resources).drop 8) 0 =
      extract_package scenario_env (pack scenario_payload scenario_resources) 0 ∧
    (extract_package scenario_env
        (MAGIC ++ [255, 255, 255, 255] ++ (pack scenario_payload scenario_resources).drop 8)
        0).exit = none := by
  have h := version_ignored scenario_env MAGIC (le32 1) [255, 255, 255, 255]
    ((pack scenario_payload scenario_resources).drop 8) 0 rfl rfl rfl
  have hp : MAGIC ++ le32 1 ++ (pack scenario_payload scenario_resources).drop 8 =
      pack scenario_payload scenario_resources := by decide
  refine ⟨rfl, rfl, rfl, hp, ?_, by decide⟩
  rw [← h.1, hp]

/-! ## What a completed extraction has consumed -/

theorem fread_agree (s s' : Bytes) (c pos n : Nat) (h : s'.take c = s.take c)
    (hle : pos + n ≤ c) : fread s' pos n = fread s pos n := by
  have ht : s'.take (pos + n) = s.take (pos + n) := by
    have h2 := congrArg (List.take (pos + n)) h
    rw [List.take_take, List.take_take, Nat.min_eq_left hle] at h2
    exact h2
  simp only [fread, List.take_drop, ht]

theorem read_u32_le_agree (s s' : Bytes) (c pos : Nat) (h : s'.take c = s.take c)
    (hle : pos + 4 ≤ c) : read_u32_le s' pos = read_u32_le s pos := by
  simp only [read_u32_le, fread_agree s s' c pos 4 h hle]

theorem fread_end_ge (me : Bytes) (pos n : Nat) : pos ≤ fread_end me pos n := by
  simp only [fread_end]
  omega

theorem resource_loop_cursor_ge (env : Env) (me : Bytes) (n : Nat) :
    ∀ pos, pos ≤ (resource_loop env me n pos).cursor := by
  induction n with
  | zero =>
    intro pos
    exact Nat.le_refl _
  | succ n ih =>
    intro pos
    rw [resource_loop]
    cases read_u32_le me pos with
    | error e => exact fread_end_ge me pos 4
    | ok name_len =>
      simp only
      split
      · exact Nat.le_add_right _ _
      · split
        · exact Nat.le_trans (Nat.le_add_right _ _) (fread_end_ge me (pos + 4) name_len)
        · cases read_u32_le me (pos + 4 + name_len) with
          | error e =>
            exact Nat.le_trans (by omega) (fread_end_ge me (pos + 4 + name_len) 4)
          | ok res_size =>
            simp only
            split
            · exact Nat.le_trans (by omega) (fread_end_ge me (pos + 4 + name_len + 4) res_size)
            · exact Nat.le_trans (by omega) (ih (pos + 4 + name_len + 4 + res_size))

theorem resource_loop_done (env : Env) (me : Bytes) (n : Nat) :
    ∀ pos, (resource_loop env me n pos).exit = none →
      (resource_loop env me n pos).suspicious = false →
      (resource_loop env me n pos).resources.length = n ∧
      (resource_loop env me n pos).cursor =
        pos + ((resource_loop env me n pos).resources.map
          (fun x => 8 + x.name_len + x.res_size)).sum := by
  induction n with
  | zero =>
    intro pos _ _
    simp [resource_loop]
  | succ n ih =>
    intro pos
    rw [resource_loop]
    cases read_u32_le me pos with
    | error e =>
      intro h
      simp [Run.fatal] at h
    | ok name_len =>
      simp only
      split
      · intro _ h
        simp at h
      · split
        · intro h
          simp [Run.fatal] at h
        · cases read_u32_le me (pos + 4 + name_len) with
          | error e =>
            intro h
            simp [Run.fatal] at h
          | ok res_size =>
            simp only
            split
            · intro h
              simp [Run.fatal] at h
            · intro h1 h2
              obtain ⟨ih1, ih2⟩ := ih (pos + 4 + name_len + 4 + res_size) h1 h2
              simp only [Run.consResource, List.length_cons, List.map_cons, List.sum_cons, ih1,
                true_and]
              rw [ih2]
              omega

theorem resource_loop_agree (env : Env) (s s' : Bytes) (c : Nat) (h : s'.take c = s.take c)
    (n : Nat) :
    ∀ pos, (resource_loop env s n pos).exit = none → (resource_loop env s n pos).cursor ≤ c →
      resource_loop env s' n pos = resource_loop env s n pos := by
  induction n with
  | zero =>
    intro pos _ _
    rfl
  | succ n ih =>
    intro pos
    rw [resource_loop, resource_loop]
    cases h1 : read_u32_le s pos with
    | error e =>
      intro hx
      simp [Run.fatal] at hx
    | ok name_len =>
      simp only
      split
      · next hbad =>
        intro _ hc
        simp only at hc
        rw [read_u32_le_agree s s' c pos h hc, h1]
        simp only
        rw [if_pos hbad]
      · next hok =>
        split
        · intro hx
          simp [Run.fatal] at hx
        · next hname =>
          cases h2 : read_u32_le s (pos + 4 + name_len) with
          | error e =>
            intro hx
            simp [Run.fatal] at hx
          | ok res_size =>
            simp only
            split
            · intro hx
              simp [Run.fatal] at hx
            · next hres =>
              intro hx hc
              have hge := resource_loop_cursor_ge env s n (pos + 4 + name_len + 4 + res_size)
              have hc' : (resource_loop env s n (pos + 4 + name_len + 4 + res_size)).cursor ≤ c :=
                hc
              rw [read_u32_le_agree s s' c pos h (by omega), h1]
              simp only
              rw [if_neg hok, fread_agree s s' c (pos + 4) name_len h (by omega), if_neg hname,
                read_u32_le_agree s s' c (pos + 4 + name_len) h (by omega), h2]
              simp only
              rw [fread_agree s s' c (pos + 4 + name_len + 4) res_size h (by omega),
                if_neg hres, ih (pos + 4 + name_len + 4 + res_size) hx hc']

theorem extract_package_done (env : Env) (s : Bytes) (off : Nat) :
    (extract_package env s off).exit = none →
    (extract_package env s off).suspicious = false →
    ∃ hc_size, read_u32_le s (off + 8) = .ok hc_size ∧
      (extract_package env s off).hc =
        some { hc_size := hc_size, hc_buf := fread s (off + 12) hc_size,
               hc_path := hc_path env.out_dir } ∧
      (fread s (off + 12) hc_size).length = hc_size ∧
      read_u32_le s (off + 12 + hc_size) = .ok (extract_package env s off).resources.length ∧
      (extract_package env s off).cursor =
        off + 16 + hc_size + ((extract_package env s off).resources.map
          (fun x => 8 + x.name_len + x.res_size)).sum := by
  unfold extract_package
  simp only
  split
  · intro h; simp [Run.fatal] at h
  · split
    · intro h; simp [Run.fatal] at h
    · cases read_u32_le s (off + 4) with
      | error e => intro h; simp [Run.fatal] at h
      | ok version =>
        simp only
        cases read_u32_le s (off + 8) with
        | error e => intro h; simp [Run.fatal] at h
        | ok hc_size =>
          simp only
          split
          · intro h; simp [Run.fatal] at h
          · next hhc =>
            split
            · intro h; simp [Run.fatal] at h
            · cases h3 : read_u32_le s (off + 12 + hc_size) with
              | error e => intro h; simp [Run.fatal, Run.withHc] at h
              | ok num_resources =>
                simp only
                intro h1 h2
                obtain ⟨d1, d2⟩ := resource_loop_done env s num_resources
                  (off + 12 + hc_size + 4) h1 h2
                refine ⟨hc_size, rfl, rfl, by simpa using hhc, ?_, ?_⟩
                · simp only [Run.withHc, d1, h3]
                · simp only [Run.withHc]
                  rw [d2]
                  omega

theorem extract_package_agree (env : Env) (s s' : Bytes) (c off : Nat)
    (h : s'.take c = s.take c) :
    (extract_package env s off).exit = none → (extract_package env s off).cursor ≤ c →
      extract_package env s' off = extract_package env s off := by
  unfold extract_package
  simp only
  split
  · intro hx; simp [Run.fatal] at hx
  · next hmagic =>
    split
    · intro hx; simp [Run.fatal] at hx
    · next hm =>
      cases h1 : read_u32_le s (off + 4) with
      | error e => intro hx; simp [Run.fatal] at hx
      | ok version =>
        simp only
        cases h2 : read_u32_le s (off + 8) with
        | error e => intro hx; simp [Run.fatal] at hx
        | ok hc_size =>
          simp only
          split
          · intro hx; simp [Run.fatal] at hx
          · next hhc =>
            split
            · intro hx; simp [Run.fatal] at hx
            · next hopen =>
              cases h3 : read_u32_le s (off + 12 + hc_size) with
              | error e => intro hx; simp [Run.fatal, Run.withHc] at hx
              | ok num_resources =>
                simp only
                intro hx hc
                have hc' : (resource_loop env s num_resources
                    (off + 12 + hc_size + 4)).cursor ≤ c := hc
                have hge := resource_loop_cursor_ge env s num_resources (off + 12 + hc_size + 4)
                rw [fread_agree s s' c off 4 h (by omega), if_neg hmagic, if_neg hm,
                  read_u32_le_agree s s' c (off + 4) h (by omega), h1]
                simp only
                rw [read_u32_le_agree s s' c (off + 8) h (by omega), h2]
                simp only
                rw [fread_agree s s' c (off + 12) hc_size h (by omega), if_neg hhc,
                  read_u32_le_agree s s' c (off + 12 + hc_size) h (by omega), h3]
                simp only
                rw [resource_loop_agree env s s' c h num_resources (off + 12 + hc_size + 4)
                  hx hc']

/-- C16. Trailing bytes are ignored: when extraction of a stream from an offset
returns success after all declared records, it has consumed exactly
16 + |P| + sum (8 + |name_i| + |data_i|) bytes from the offset, the record count
being the declared one; the run on the stream followed by any bytes is the same
run, and so is the run on any stream that agrees with it up to the final cursor. -/
theorem trailing_bytes_ignored (env : Env) (s : Bytes) (off : Nat)
    (hexit : (extract_package env s off).exit = none)
    (hall : (extract_package env s off).suspicious = false) :
    (∀ t, extract_package env (s ++ t) off = extract_package env s off) ∧
    (∃ hc_size, read_u32_le s (off + 8) = .ok hc_size ∧
      (extract_package env s off).hc =
        some { hc_size := hc_size, hc_buf := fread s (off + 12) hc_size,
               hc_path := hc_path env.out_dir } ∧
      (fread s (off + 12) hc_size).length = hc_size ∧
      read_u32_le s (off + 12 + hc_size) = .ok (extract_package env s off).resources.length ∧
      (extract_package env s off).cursor =
        off + 16 + hc_size + ((extract_package env s off).resources.map
          (fun x => 8 + x.name_len + x.res_size)).sum) ∧
    (∀ s' : Bytes, s'.take (extract_package env s off).cursor =
        s.take (extract_package env s off).cursor →
      extract_package env s' off = extract_package env s off) := by
  refine ⟨?_, extract_package_done env s off hexit hall, ?_⟩
  · intro t
    rcases extract_package_cut env s t off with h | ⟨⟨e, he, _⟩, _⟩
    · exact h.symm
    · rw [hexit] at he
      cases he
  · intro s' hs'
    exact extract_package_agree env s s' _ off hs' hexit (Nat.le_refl _)

/-- C16 on the container of `PRINT("HI");` with `icon.bmp` followed by three more
bytes. -/
theorem trailing_bytes_ignored_witness :
    (extract_package scenario_env (pack scenario_payload scenario_resources) 0).exit = none ∧
    (extract_package scenario_env (pack scenario_payload scenario_resources) 0).suspicious
      = false ∧
    extract_package scenario_env (pack scenario_payload scenario_resources ++ [7, 7, 7]) 0 =
      extract_package scenario_env (pack scenario_payload scenario_resources) 0 ∧
    (extract_package scenario_env (pack scenario_payload scenario_resources) 0).cursor
      = 16 + 12 + (8 + 8 + 4) := by
  have h := trailing_bytes_ignored scenario_env (pack scenario_payload scenario_resources) 0
    (by decide) (by decide)
  exact ⟨by decide, by decide, h.1 [7, 7, 7], by decide⟩

/-! ## Resources whose file cannot be created -/

theorem files_of_eq_filter (env : Env) (recs : List (Bytes × Bytes)) :
    files_of env recs =
      (recs.filter (fun r => env.canOpen (out_path env.out_dir r.1))).map
        (fun r => (out_path env.out_dir r.1, r.2)) := by
  induction recs with
  | nil => rfl
  | cons r rest ih =>
    simp only [files_of] at ih
    simp only [files_of, List.filterMap_cons, List.filter_cons]
    cases env.canOpen (out_path env.out_dir r.1) with
    | true => simp only [if_true, List.map_cons, ih]
    | false => simpa using ih

/-- C14, as amended. Per-resource file-creation failure is isolated: on a
well-formed container (valid header, payload, and as many well-formed records as
declared), whichever resource paths cannot be opened, the path of the payload
file not being one of them, the stub returns success with the cursor right after
the last record, has read every record with its name and data, and has written,
in order and with their data, exactly the resources whose path can be opened. -/
theorem creation_failure_isolated (env : Env) (pre P B : Bytes) (recs : List (Bytes × Bytes))
    (v : Nat) (hv : v < 2 ^ 32) (hP : P.length < 2 ^ 32) (hn : recs.length < 2 ^ 32)
    (hgood : ∀ r ∈ recs, 1 ≤ r.1.length ∧ r.1.length ≤ 1000 ∧ r.2.length < 2 ^ 32)
    (hopen : env.canOpen (hc_path env.out_dir) = true) :
    extract_package env
        (pre ++ (MAGIC ++ le32 v ++ le32 P.length ++ P ++ le32 recs.length ++
          layout_resources recs ++ B)) pre.length =
      { exit := none,
        cursor := pre.length + 16 + P.length + (layout_resources recs).length,
        suspicious := false,
        hc := some { hc_size := P.length, hc_buf := P, hc_path := hc_path env.out_dir },
        resources := recs.map (record_of env) } ∧
    (extract_package env
        (pre ++ (MAGIC ++ le32 v ++ le32 P.length ++ P ++ le32 recs.length ++
          layout_resources recs ++ B)) pre.length).files =
      (hc_path env.out_dir, P) ::
        (recs.filter (fun r => env.canOpen (out_path env.out_dir r.1))).map
          (fun r => (out_path env.out_dir r.1, r.2)) := by
  have hme : (pre ++ (MAGIC ++ le32 v ++ le32 P.length ++ P ++ le32 recs.length ++
      layout_resources recs ++ B)) =
      pre ++ (MAGIC ++ (le32 v ++ (le32 P.length ++ (P ++ (le32 recs.length ++
        (layout_resources recs ++ B)))))) := by
    simp only [List.append_assoc]
  have hrun := extract_good_records env _ pre P B recs v recs.length 0 hme hv hP hn rfl
    hgood hopen
  have hrun' : extract_package env
      (pre ++ (MAGIC ++ le32 v ++ le32 P.length ++ P ++ le32 recs.length ++
        layout_resources recs ++ B)) pre.length =
      { exit := none,
        cursor := pre.length + 16 + P.length + (layout_resources recs).length,
        suspicious := false,
        hc := some { hc_size := P.length, hc_buf := P, hc_path := hc_path env.out_dir },
        resources := recs.map (record_of env) } := by
    rw [hrun, resource_loop]
    simp [Run.withHc, Run.prepend]
  refine ⟨hrun', ?_⟩
  rw [hrun']
  simp only [Run.files, Option.map_some', Option.toList_some, HcFile.file, List.take_length,
    files_of_records, List.singleton_append, files_of_eq_filter]

/-- C14 as amended, on a container with `icon.bmp` and `b` when `out/icon.bmp`
cannot be opened: success, both records read, `extracted.hc` and `out/b` written. -/
theorem creation_failure_isolated_witness :
    two_resources.length < 2 ^ 32 ∧
    (∀ r ∈ two_resources, 1 ≤ r.1.length ∧ r.1.length ≤ 1000 ∧ r.2.length < 2 ^ 32) ∧
    blocked_env.canOpen (hc_path blocked_env.out_dir) = true ∧
    (extract_package blocked_env
        ([] ++ (MAGIC ++ le32 1 ++ le32 scenario_payload.length ++ scenario_payload ++
          le32 two_resources.length ++ layout_resources two_resources ++ [])) 0).exit = none ∧
    (extract_package blocked_env
        ([] ++ (MAGIC ++ le32 1 ++ le32 scenario_payload.length ++ scenario_payload ++
          le32 two_resources.length ++ layout_resources two_resources ++ [])) 0).files =
      [(hc_path blocked_env.out_dir, scenario_payload), ([111, 117, 116, 47, 98], [5])] := by
  have hgood : ∀ r ∈ two_resources, 1 ≤ r.1.length ∧ r.1.length ≤ 1000 ∧ r.2.length < 2 ^ 32 := by
    decide
  have h := creation_failure_isolated blocked_env [] scenario_payload [] two_resources 1
    (by decide) (by decide) (by decide) hgood (by decide)
  refine ⟨by decide, hgood, by decide, ?_, ?_⟩
  · have h1 := congrArg Run.exit h.1
    exact h1
  · exact h.2.trans (by decide)

/-- C14 as stated fails: for the container holding a resource named
`extracted.hc`, when the path `out/extracted.hc` of that resource cannot be opened
the stub does not skip the resource and succeed, it exits at the payload file,
which has the same path, and writes nothing. -/
theorem creation_failure_isolated_counterexample :
    (∀ r ∈ collision_resources, (0 : Byte) ∉ r.1 ∧ 1 ≤ r.1.length ∧ r.1.length ≤ 1000 ∧
      r.2.length < 2 ^ 32) ∧
    collision_resources.map (fun r => out_path payload_blocked_env.out_dir r.1) =
      [[111, 117, 116, 47, 101, 120, 116, 114, 97, 99, 116, 101, 100, 46, 104, 99]] ∧
    payload_blocked_env.canOpen
      [111, 117, 116, 47, 101, 120, 116, 114, 97, 99, 116, 101, 100, 46, 104, 99] = false ∧
    (extract_package payload_blocked_env (pack scenario_payload collision_resources) 0).exit =
      some .createExtractedHc ∧
    (extract_package payload_blocked_env (pack scenario_payload collision_resources) 0).files
      = [] := by
  decide

/-! ## The paths the stub composes -/

theorem snprintf_path_length_le (size : Nat) (dir name : Bytes) :
    (snprintf_path size dir name).length ≤ size - 1 := by
  simp only [snprintf_path]
  exact List.length_take_le _ _

theorem snprintf_path_eq (size : Nat) (dir name : Bytes) (hdir : (0 : Byte) ∉ dir)
    (hname : (0 : Byte) ∉ name) (hfit : dir.length + 1 + name.length ≤ size - 1) :
    snprintf_path size dir name = dir ++ [47] ++ name := by
  simp only [snprintf_path, cstr_eq_self dir hdir, cstr_eq_self name hname]
  apply List.take_of_length_le
  simp only [List.length_append, List.length_cons, List.length_nil]
  omega

theorem out_path_eq (dir name : Bytes) (hdir : (0 : Byte) ∉ dir) (hname : (0 : Byte) ∉ name)
    (hfit : dir.length + 1 + name.length ≤ 2047) : out_path dir name = dir ++ [47] ++ name :=
  snprintf_path_eq 2048 dir name hdir hname hfit

theorem hc_path_eq (dir : Bytes) (hdir : (0 : Byte) ∉ dir) (hfit : dir.length + 13 ≤ 1023) :
    hc_path dir = dir ++ [47] ++ extracted_hc :=
  snprintf_path_eq 1024 dir extracted_hc hdir (by decide)
    (by simp only [extracted_hc, List.length_cons, List.length_nil]; omega)

theorem out_path_extracted_hc (dir : Bytes) (hdir : (0 : Byte) ∉ dir)
    (hfit : dir.length + 13 ≤ 1023) : out_path dir extracted_hc = hc_path dir := by
  rw [hc_path_eq dir hdir hfit]
  exact out_path_eq dir extracted_hc hdir (by decide)
    (by simp only [extracted_hc, List.length_cons, List.length_nil]; omega)

/-! ## The file left by the last write -/

theorem file_after_none {ι : Type} [DecidableEq ι] (resolve : Bytes → ι)
    (ws : List (Bytes × Bytes)) (f : ι) (h : ∀ w ∈ ws, resolve w.1 ≠ f) :
    file_after resolve ws f = none := by
  induction ws with
  | nil => rfl
  | cons w rest ih =>
    simp only [file_after, ih (fun u hu => h u (List.mem_cons_of_mem _ hu))]
    rw [if_neg (h w (List.mem_cons_self _ _))]

theorem file_after_cons_last {ι : Type} [DecidableEq ι] (resolve : Bytes → ι)
    (w : Bytes × Bytes) (ws : List (Bytes × Bytes)) (h : ∀ u ∈ ws, resolve u.1 ≠ resolve w.1) :
    file_after resolve (w :: ws) (resolve w.1) = some w.2 := by
  simp only [file_after, file_after_none resolve ws (resolve w.1) h, if_true]

theorem file_after_append {ι : Type} [DecidableEq ι] (resolve : Bytes → ι)
    (ws1 ws2 : List (Bytes × Bytes)) (f : ι) (d : Bytes)
    (h : file_after resolve ws2 f = some d) : file_after resolve (ws1 ++ ws2) f = some d := by
  induction ws1 with
  | nil => exact h
  | cons w rest ih =>
    rw [List.cons_append, file_after, ih]

theorem file_after_last {ι : Type} [DecidableEq ι] (resolve : Bytes → ι)
    (ws1 ws2 : List (Bytes × Bytes)) (w : Bytes × Bytes)
    (h : ∀ u ∈ ws2, resolve u.1 ≠ resolve w.1) :
    file_after resolve (ws1 ++ w :: ws2) (resolve w.1) = some w.2 :=
  file_after_append resolve ws1 (w :: ws2) _ _ (file_after_cons_last resolve w ws2 h)

/-! ## What every completed iteration holds -/

theorem resource_loop_records (env : Env) (me : Bytes) (n : Nat) :
    ∀ pos, ∀ x ∈ (resource_loop env me n pos).resources,
      x.out_path = out_path env.out_dir x.name ∧ x.opened = env.canOpen x.out_path ∧
        1 ≤ x.name_len ∧ x.name_len ≤ 1000 := by
  induction n with
  | zero =>
    intro pos x hx
    simp [resource_loop] at hx
  | succ n ih =>
    intro pos x hx
    rw [resource_loop] at hx
    cases h1 : read_u32_le me pos with
    | error e =>
      rw [h1] at hx
      simp [Run.fatal] at hx
    | ok name_len =>
      rw [h1] at hx
      simp only at hx
      split at hx
      · simp at hx
      · next hok =>
        split at hx
        · simp [Run.fatal] at hx
        · cases h2 : read_u32_le me (pos + 4 + name_len) with
          | error e =>
            rw [h2] at hx
            simp [Run.fatal] at hx
          | ok res_size =>
            rw [h2] at hx
            simp only at hx
            split at hx
            · simp [Run.fatal] at hx
            · simp only [Run.consResource, List.mem_cons] at hx
              rcases hx with hx | hx
              · subst hx
                exact ⟨rfl, rfl, by show 1 ≤ name_len; omega, by show name_len ≤ 1000; omega⟩
              · exact ih _ x hx

theorem extract_package_resources (env : Env) (me : Bytes) (off : Nat) :
    (extract_package env me off).resources = [] ∨
      ∃ n pos, (extract_package env me off).resources = (resource_loop env me n pos).resources := by
  unfold extract_package
  simp only
  split
  · exact Or.inl rfl
  · split
    · exact Or.inl rfl
    · cases read_u32_le me (off + 4) with
      | error e => exact Or.inl rfl
      | ok version =>
        simp only
        cases read_u32_le me (off + 8) with
        | error e => exact Or.inl rfl
        | ok hc_size =>
          simp only
          split
          · exact Or.inl rfl
          · split
            · exact Or.inl rfl
            · cases read_u32_le me (off + 12 + hc_size) with
              | error e => exact Or.inl rfl
              | ok num_resources => exact Or.inr ⟨_, _, rfl⟩

theorem extract_package_records (env : Env) (me : Bytes) (off : Nat) :
    ∀ x ∈ (extract_package env me off).resources,
      x.out_path = out_path env.out_dir x.name ∧ x.opened = env.canOpen x.out_path ∧
        1 ≤ x.name_len ∧ x.name_len ≤ 1000 := by
  intro x hx
  rcases extract_package_resources env me off with h | ⟨n, pos, h⟩
  · rw [h] at hx
    cases hx
  · rw [h] at hx
    exact resource_loop_records env me n pos x hx

/-! ## Resource paths -/

theorem extract_pack_files (env : Env) (P : Bytes) (rs : List (Bytes × Bytes))
    (hP : P.length < 2 ^ 32) (hk : rs.length < 2 ^ 32)
    (hrs : ∀ r ∈ rs, (0 : Byte) ∉ r.1 ∧ 1 ≤ r.1.length ∧ r.1.length ≤ 1000 ∧
      r.2.length < 2 ^ 32)
    (hopen : env.canOpen (hc_path env.out_dir) = true)
    (hall : ∀ r ∈ rs, env.canOpen (out_path env.out_dir r.1) = true) :
    (extract_package env (pack P rs) 0).files =
      (hc_path env.out_dir, P) :: rs.map (fun r => (out_path env.out_dir r.1, r.2)) := by
  rw [extract_pack_good env P rs hP hk hrs hopen]
  simp only [Run.files, Option.map_some', Option.toList_some, HcFile.file, List.take_length,
    files_of_records, List.singleton_append, files_of_all_open env rs hall]

/-- C12, as amended. Resource paths are verbatim: for every resource record
reached by the stub whose name has 1 to 1000 bytes, none of them NUL, when
`output_dir ++ "/" ++ name` has at most 2047 bytes and can be opened, the stub
writes the record's data, all `data_length` bytes, to exactly that path, using
all `name_length` bytes of the stored name unchanged. -/
theorem resource_path_verbatim (env : Env) (pre P B : Bytes) (recs : List (Bytes × Bytes))
    (v n k : Nat) (hv : v < 2 ^ 32) (hP : P.length < 2 ^ 32) (hn : n < 2 ^ 32)
    (hnk : n = recs.length + k)
    (hgood : ∀ r ∈ recs, 1 ≤ r.1.length ∧ r.1.length ≤ 1000 ∧ r.2.length < 2 ^ 32)
    (hopen : env.canOpen (hc_path env.out_dir) = true)
    (hdir : (0 : Byte) ∉ env.out_dir)
    (name data : Bytes) (hmem : (name, data) ∈ recs) (hnul : (0 : Byte) ∉ name)
    (hfit : env.out_dir.length + 1 + name.length ≤ 2047)
    (hcan : env.canOpen (env.out_dir ++ [47] ++ name) = true) :
    { name_len := name.length, name := name, res_size := data.length, res_buf := data,
      out_path := env.out_dir ++ [47] ++ name, opened := true } ∈
      (extract_package env
        (pre ++ (MAGIC ++ le32 v ++ le32 P.length ++ P ++ le32 n ++ layout_resources recs ++ B))
        pre.length).resources ∧
    (env.out_dir ++ [47] ++ name, data) ∈
      (extract_package env
        (pre ++ (MAGIC ++ le32 v ++ le32 P.length ++ P ++ le32 n ++ layout_resources recs ++ B))
        pre.length).files := by
  have hme : (pre ++ (MAGIC ++ le32 v ++ le32 P.length ++ P ++ le32 n ++ layout_resources recs ++
      B)) =
      pre ++ (MAGIC ++ (le32 v ++ (le32 P.length ++ (P ++ (le32 n ++
        (layout_resources recs ++ B)))))) := by
    simp only [List.append_assoc]
  have hrun := extract_good_records env _ pre P B recs v n k hme hv hP hn hnk hgood hopen
  have hpath := out_path_eq env.out_dir name hdir hnul hfit
  have hrec : record_of env (name, data) =
      { name_len := name.length, name := name, res_size := data.length, res_buf := data,
        out_path := env.out_dir ++ [47] ++ name, opened := true } := by
    simp only [record_of, hpath, hcan]
  have hin : record_of env (name, data) ∈ recs.map (record_of env) :=
    List.mem_map.2 ⟨(name, data), hmem, rfl⟩
  rw [hrec] at hin
  rw [hrun]
  refine ⟨?_, ?_⟩
  · simp only [Run.withHc, Run.prepend]
    exact List.mem_append_left _ hin
  · simp only [Run.files, Run.withHc, Run.prepend, List.filterMap_append, List.mem_append]
    right
    left
    exact List.mem_filterMap.2 ⟨_, hin, by simp [ResRecord.file]⟩

/-- C12 as amended, on the container of `PRINT("HI");` with `icon.bmp`: the data
go to `out/icon.bmp`. -/
theorem resource_path_verbatim_witness :
    (([105, 99, 111, 110, 46, 98, 109, 112], [222, 173, 190, 239]) : Bytes × Bytes) ∈
      scenario_resources ∧
    (0 : Byte) ∉ scenario_env.out_dir ∧
    (0 : Byte) ∉ ([105, 99, 111, 110, 46, 98, 109, 112] : Bytes) ∧
    ([111, 117, 116, 47, 105, 99, 111, 110, 46, 98, 109, 112], [222, 173, 190, 239]) ∈
      (extract_package scenario_env
        ([] ++ (MAGIC ++ le32 1 ++ le32 scenario_payload.length ++ scenario_payload ++ le32 1 ++
          layout_resources scenario_resources ++ [])) 0).files := by
  have h := resource_path_verbatim scenario_env [] scenario_payload [] scenario_resources 1 1 0
    (by decide) (by decide) (by decide) rfl (by decide) rfl (by decide)
    [105, 99, 111, 110, 46, 98, 109, 112] [222, 173, 190, 239] (by decide) (by decide)
    (by decide) rfl
  exact ⟨by decide, by decide, by decide, h.2⟩

theorem long_dir_length : long_dir.length = 1050 := by
  simp only [long_dir, dotted_path_length, List.length_replicate]

theorem long_tail_name_length : long_tail_name.length = 1000 := by
  simp only [long_tail_name, dotted_path_length, List.length_replicate]

theorem long_tail_name_no_nul : (0 : Byte) ∉ long_tail_name :=
  dotted_path_no_nul 490 _ (by decide)

theorem long_tail_resources_good :
    ∀ r ∈ long_tail_resources, (0 : Byte) ∉ r.1 ∧ 1 ≤ r.1.length ∧ r.1.length ≤ 1000 ∧
      r.2.length < 2 ^ 32 := by
  intro r hr
  simp only [long_tail_resources, List.mem_singleton] at hr
  subst hr
  refine ⟨long_tail_name_no_nul, ?_, ?_, by decide⟩
  · simp only [long_tail_name_length]; decide
  · simp only [long_tail_name_length]; decide

/-- C12 as stated fails in two ways: a record whose name bytes are `a`, NUL, `b`
is written to `out/a`, the name being cut at the NUL; and with an output
directory path of 1050 bytes a record with a name of 1000 bytes is written to the
first 2047 bytes of `output_dir ++ "/" ++ name`, not to that path. -/
theorem resource_path_verbatim_counterexample :
    ((extract_package scenario_env nul_name_stream 0).resources.map (fun x => x.name) =
        [[97, 0, 98]] ∧
      (extract_package scenario_env nul_name_stream 0).files =
        [(hc_path scenario_env.out_dir, []), ([111, 117, 116, 47, 97], [9])] ∧
      (scenario_env.out_dir ++ [47] ++ [97, 0, 98], [9]) ∉
        (extract_package scenario_env nul_name_stream 0).files) ∧
    ((extract_package long_env (pack scenario_payload long_tail_resources) 0).files =
        [(hc_path long_dir, scenario_payload), (out_path long_dir long_tail_name, [1, 2])] ∧
      (out_path long_dir long_tail_name).length ≤ 2047 ∧
      (long_dir ++ [47] ++ long_tail_name).length = 2051 ∧
      (long_dir ++ [47] ++ long_tail_name, [1, 2]) ∉
        (extract_package long_env (pack scenario_payload long_tail_resources) 0).files) := by
  refine ⟨by decide, ?_⟩
  have hfiles := extract_pack_files long_env scenario_payload long_tail_resources
    (by decide) (by decide) long_tail_resources_good rfl (fun _ _ => rfl)
  have hlen : (long_dir ++ [47] ++ long_tail_name).length = 2051 := by
    simp only [List.length_append, long_dir_length, long_tail_name_length, List.length_cons,
      List.length_nil]
  have h1 : (hc_path long_dir).length ≤ 1023 := snprintf_path_length_le 1024 _ _
  have h2 : (out_path long_dir long_tail_name).length ≤ 2047 := snprintf_path_length_le 2048 _ _
  refine ⟨hfiles, h2, hlen, ?_⟩
  rw [hfiles]
  intro hm
  simp only [long_tail_resources, long_env, List.map_cons, List.map_nil, List.mem_cons,
    Prod.mk.injEq, List.mem_nil_iff, or_false] at hm
  rcases hm with ⟨hp, _⟩ | ⟨hp, _⟩
  · have := congrArg List.length hp
    omega
  · have := congrArg List.length hp
    omega

/-! ## The primary payload file -/

theorem extract_package_past_payload (env : Env) (me : Bytes) (off v hc_size : Nat)
    (hmagic : fread me off 4 = MAGIC) (hver : read_u32_le me (off + 4) = .ok v)
    (hsize : read_u32_le me (off + 8) = .ok hc_size)
    (hpay : (fread me (off + 12) hc_size).length = hc_size)
    (hopen : env.canOpen (hc_path env.out_dir) = true) :
    ∃ rest : Run, extract_package env me off =
      Run.withHc { hc_size := hc_size, hc_buf := fread me (off + 12) hc_size,
                   hc_path := hc_path env.out_dir } rest := by
  unfold extract_package
  simp only [hmagic, hver, hsize, hpay, hopen]
  simp only [MAGIC, List.length_cons, List.length_nil, ne_eq, not_true_eq_false, if_false]
  exact ⟨_, rfl⟩

theorem mem_filterMap_file (xs : List ResRecord) (u : Bytes × Bytes)
    (hu : u ∈ xs.filterMap ResRecord.file) :
    ∃ x ∈ xs, x.opened = true ∧ u.1 = x.out_path := by
  obtain ⟨x, hx, hf⟩ := List.mem_filterMap.1 hu
  refine ⟨x, hx, ?_⟩
  unfold ResRecord.file at hf
  split at hf
  · next ho =>
    cases hf
    exact ⟨ho, rfl⟩
  · cases hf

/-- C11, as amended. Primary payload file: for every stream on which extraction
gets past the payload read, with an output directory path of at most 1010 bytes
and `extracted.hc` creatable, the file `output_dir/extracted.hc` is the first file
written and receives exactly the `primary_payload_length` bytes that follow the
length field; when extraction finishes, whatever its exit, that file holds exactly
the primary payload provided no resource was written to the same file after it. -/
theorem primary_payload_file (env : Env) {ι : Type} [DecidableEq ι] (resolve : Bytes → ι)
    (me : Bytes) (off v hc_size : Nat)
    (hmagic : fread me off 4 = MAGIC) (hver : read_u32_le me (off + 4) = .ok v)
    (hsize : read_u32_le me (off + 8) = .ok hc_size)
    (hpay : (fread me (off + 12) hc_size).length = hc_size)
    (hopen : env.canOpen (hc_path env.out_dir) = true)
    (hdir : (0 : Byte) ∉ env.out_dir) (hfit : env.out_dir.length + 13 ≤ 1023) :
    (extract_package env me off).files =
      (env.out_dir ++ [47] ++ extracted_hc, fread me (off + 12) hc_size) ::
        (extract_package env me off).resources.filterMap ResRecord.file ∧
    ((∀ x ∈ (extract_package env me off).resources, x.opened = true →
        resolve x.out_path ≠ resolve (env.out_dir ++ [47] ++ extracted_hc)) →
      file_after resolve (extract_package env me off).files
        (resolve (env.out_dir ++ [47] ++ extracted_hc)) = some (fread me (off + 12) hc_size)) := by
  obtain ⟨rest, hrun⟩ := extract_package_past_payload env me off v hc_size hmagic hver hsize
    hpay hopen
  have hfiles : (extract_package env me off).files =
      (env.out_dir ++ [47] ++ extracted_hc, fread me (off + 12) hc_size) ::
        (extract_package env me off).resources.filterMap ResRecord.file := by
    have ht : (fread me (off + 12) hc_size).take hc_size = fread me (off + 12) hc_size :=
      List.take_of_length_le (by rw [hpay])
    rw [hrun, Run.withHc_files]
    simp only [HcFile.file, hc_path_eq env.out_dir hdir hfit, ht]
    rfl
  refine ⟨hfiles, ?_⟩
  intro hlast
  rw [hfiles]
  apply file_after_cons_last resolve
    (env.out_dir ++ [47] ++ extracted_hc, fread me (off + 12) hc_size)
  intro u hu
  obtain ⟨x, hx, ho, hp⟩ := mem_filterMap_file _ u hu
  rw [hp]
  exact hlast x hx ho

/-- C11 as amended, on the container of `PRINT("HI");` with `icon.bmp`. -/
theorem primary_payload_file_witness :
    fread (pack scenario_payload scenario_resources) 0 4 = MAGIC ∧
    read_u32_le (pack scenario_payload scenario_resources) (0 + 4) = .ok 1 ∧
    read_u32_le (pack scenario_payload scenario_resources) (0 + 8) = .ok 12 ∧
    (fread (pack scenario_payload scenario_resources) (0 + 12) 12).length = 12 ∧
    scenario_env.canOpen (hc_path scenario_env.out_dir) = true ∧
    (0 : Byte) ∉ scenario_env.out_dir ∧ scenario_env.out_dir.length + 13 ≤ 1023 ∧
    file_after id (extract_package scenario_env (pack scenario_payload scenario_resources) 0).files
      [111, 117, 116, 47, 101, 120, 116, 114, 97, 99, 116, 101, 100, 46, 104, 99] =
      some scenario_payload := by
  have h := primary_payload_file scenario_env id (pack scenario_payload scenario_resources)
    0 1 12 (by decide) rfl rfl (by decide) rfl (by decide) (by decide)
  exact ⟨by decide, rfl, rfl, by decide, rfl, by decide, by decide, h.2 (by decide)⟩

/-- C11 as stated fails in two ways: a resource named `extracted.hc` is written
to the payload's path after the payload, so at the end `out/extracted.hc` holds
the resource's bytes; and with an output directory path of 1050 bytes the payload
is written to the first 1023 bytes of `output_dir ++ "/extracted.hc"`, so the
file `output_dir/extracted.hc` is not written. -/
theorem primary_payload_file_counterexample :
    ((extract_package scenario_env (pack scenario_payload collision_resources) 0).exit = none ∧
      file_after id
        (extract_package scenario_env (pack scenario_payload collision_resources) 0).files
        (scenario_env.out_dir ++ [47] ++ extracted_hc) = some [1, 2, 3] ∧
      file_after id
        (extract_package scenario_env (pack scenario_payload collision_resources) 0).files
        (scenario_env.out_dir ++ [47] ++ extracted_hc) ≠ some scenario_payload) ∧
    ((extract_package long_env (pack scenario_payload []) 0).files =
        [(hc_path long_dir, scenario_payload)] ∧
      (hc_path long_dir).length ≤ 1023 ∧
      (long_dir ++ [47] ++ extracted_hc).length = 1063 ∧
      file_after id (extract_package long_env (pack scenario_payload []) 0).files
        (long_dir ++ [47] ++ extracted_hc) = none) := by
  refine ⟨by decide, ?_⟩
  have hfiles := extract_pack_files long_env scenario_payload [] (by decide) (by decide)
    (by simp) rfl (by simp)
  have hlen : (long_dir ++ [47] ++ extracted_hc).length = 1063 := by
    simp only [List.length_append, long_dir_length, extracted_hc, List.length_cons,
      List.length_nil]
  have h1 : (hc_path long_dir).length ≤ 1023 := snprintf_path_length_le 1024 _ _
  refine ⟨hfiles, h1, hlen, ?_⟩
  rw [hfiles]
  apply file_after_none
  intro w hw
  simp only [List.map_nil, List.mem_singleton] at hw
  subst hw
  intro hp
  have := congrArg List.length hp
  simp only [id, long_env] at this
  omega

/-! ## Several writes to one file -/

theorem extract_package_hc_path (env : Env) (me : Bytes) (off : Nat) (h : HcFile)
    (hh : (extract_package env me off).hc = some h) : h.hc_path = hc_path env.out_dir := by
  unfold extract_package at hh
  simp only at hh
  split at hh
  · cases hh
  · split at hh
    · cases hh
    · cases h1 : read_u32_le me (off + 4) with
      | error e => rw [h1] at hh; cases hh
      | ok version =>
        rw [h1] at hh
        simp only at hh
        cases h2 : read_u32_le me (off + 8) with
        | error e => rw [h2] at hh; cases hh
        | ok hc_size =>
          rw [h2] at hh
          simp only at hh
          split at hh
          · cases hh
          · split at hh
            · cases hh
            · simp only [Run.withHc, Option.some.injEq] at hh
              rw [← hh]

theorem files_split (r : Run) (l1 l3 : List ResRecord) (y : ResRecord)
    (hres : r.resources = l1 ++ y :: l3) (hy : y.opened = true)
    (hlen : y.res_buf.length = y.res_size) :
    r.files = ((r.hc.map HcFile.file).toList ++ l1.filterMap ResRecord.file) ++
      (y.out_path, y.res_buf) :: l3.filterMap ResRecord.file := by
  have hf : ResRecord.file y = some (y.out_path, y.res_buf) := by
    simp only [ResRecord.file, hy, if_true, ← hlen, List.take_length]
  simp only [Run.files, hres, List.filterMap_append, List.filterMap_cons, hf, List.append_assoc]

/-- C17, as amended. Name collisions resolve to the last writer: in every
extraction a record whose path can be opened, and after which no record is
written to the same file, leaves its data in the file at the path the stub
composes for its name, which is `output_dir/<name>` when the directory and the
name hold no NUL and that path has at most 2047 bytes; every earlier record with
the same name was processed and written to the same path. The same holds with
respect to the primary payload file for a record whose path names that file, as
a record named `extracted.hc` does when `output_dir/extracted.hc` has at most 1023
bytes. -/
theorem last_writer_wins (env : Env) {ι : Type} [DecidableEq ι] (resolve : Bytes → ι)
    (me : Bytes) (off : Nat) (l1 l3 : List ResRecord) (y : ResRecord)
    (hres : (extract_package env me off).resources = l1 ++ y :: l3)
    (hy : y.opened = true)
    (hlast : ∀ z ∈ l3, z.opened = true → resolve z.out_path ≠ resolve y.out_path) :
    file_after resolve (extract_package env me off).files (resolve y.out_path) = some y.res_buf ∧
    y.out_path = out_path env.out_dir y.name ∧
    ((0 : Byte) ∉ env.out_dir → (0 : Byte) ∉ y.name →
      env.out_dir.length + 1 + y.name.length ≤ 2047 →
      y.out_path = env.out_dir ++ [47] ++ y.name) ∧
    (∀ x ∈ l1, x.name = y.name →
      x.out_path = y.out_path ∧ (x.out_path, x.res_buf) ∈ (extract_package env me off).files) ∧
    (∀ h, (extract_package env me off).hc = some h →
      (resolve y.out_path = resolve h.hc_path →
        file_after resolve (extract_package env me off).files (resolve h.hc_path)
          = some y.res_buf) ∧
      ((0 : Byte) ∉ env.out_dir → env.out_dir.length + 13 ≤ 1023 → y.name = extracted_hc →
        y.out_path = h.hc_path)) := by
  have hymem : y ∈ (extract_package env me off).resources := by
    rw [hres]; simp
  have hyrec := extract_package_records env me off y hymem
  have hylen := (extract_package_lengths env me off).2 y hymem
  have hsplit := files_split (extract_package env me off) l1 l3 y hres hy hylen.2
  have hfinal : file_after resolve (extract_package env me off).files (resolve y.out_path) =
      some y.res_buf := by
    rw [hsplit]
    apply file_after_last resolve _ _ (y.out_path, y.res_buf)
    intro u hu
    obtain ⟨z, hz, ho, hp⟩ := mem_filterMap_file _ u hu
    rw [hp]
    exact hlast z hz ho
  refine ⟨hfinal, hyrec.1, ?_, ?_, ?_⟩
  · intro hdir hnul hfit
    rw [hyrec.1]
    exact out_path_eq env.out_dir y.name hdir hnul hfit
  · intro x hx hname
    have hxmem : x ∈ (extract_package env me off).resources := by
      rw [hres]; exact List.mem_append_left _ hx
    have hxrec := extract_package_records env me off x hxmem
    have hxlen := (extract_package_lengths env me off).2 x hxmem
    have hpath : x.out_path = y.out_path := by
      rw [hxrec.1, hyrec.1, hname]
    have hxo : x.opened = true := by
      rw [hxrec.2.1, hpath, ← hyrec.2.1, hy]
    refine ⟨hpath, ?_⟩
    simp only [Run.files, List.mem_append]
    right
    refine List.mem_filterMap.2 ⟨x, hxmem, ?_⟩
    simp only [ResRecord.file, hxo, if_true, ← hxlen.2, List.take_length]
  · intro h hh
    refine ⟨?_, ?_⟩
    · intro hsame
      rw [← hsame]
      exact hfinal
    · intro hdir hfit hname
      rw [hyrec.1, hname, extract_package_hc_path env me off h hh]
      exact out_path_extracted_hc env.out_dir hdir hfit

/-- C17 as amended, on a container with two resources named `a` and on one with
a resource named `extracted.hc`: `out/a` ends with the second content and
`out/extracted.hc` with the resource's content. -/
theorem last_writer_wins_witness :
    file_after id (extract_package scenario_env (pack scenario_payload same_name_resources) 0).files
      [111, 117, 116, 47, 97] = some [2] ∧
    file_after id
      (extract_package scenario_env (pack scenario_payload collision_resources) 0).files
      (hc_path scenario_env.out_dir) = some [1, 2, 3] := by
  have hres1 : (extract_package scenario_env (pack scenario_payload same_name_resources)
      0).resources =
      [{ name_len := 1, name := [97], res_size := 1, res_buf := [1],
         out_path := [111, 117, 116, 47, 97], opened := true }] ++
      { name_len := 1, name := [97], res_size := 1, res_buf := [2],
         out_path := [111, 117, 116, 47, 97], opened := true } :: [] := by decide
  have h1 := last_writer_wins scenario_env id (pack scenario_payload same_name_resources) 0
    _ _ _ hres1 rfl (by simp)
  have hres2 : (extract_package scenario_env (pack scenario_payload collision_resources)
      0).resources =
      [] ++ { name_len := 12, name := extracted_hc, res_size := 3, res_buf := [1, 2, 3],
              out_path := hc_path scenario_env.out_dir, opened := true } :: [] := by decide
  have h2 := last_writer_wins scenario_env id (pack scenario_payload collision_resources) 0
    _ _ _ hres2 rfl (by simp)
  exact ⟨h1.1, h2.1⟩

theorem long_dir_no_nul : (0 : Byte) ∉ long_dir :=
  dotted_path_no_nul 510 _ (by decide)

theorem long_twice_resources_good :
    ∀ r ∈ long_twice_resources, (0 : Byte) ∉ r.1 ∧ 1 ≤ r.1.length ∧ r.1.length ≤ 1000 ∧
      r.2.length < 2 ^ 32 := by
  intro r hr
  simp only [long_twice_resources, List.mem_cons, List.mem_singleton, List.mem_nil_iff,
    or_false] at hr
  rcases hr with hr | hr <;> subst hr
  · refine ⟨long_tail_name_no_nul, ?_, ?_, by decide⟩ <;>
      simp only [long_tail_name_length] <;> decide
  · refine ⟨long_tail_name_no_nul, ?_, ?_, by decide⟩ <;>
      simp only [long_tail_name_length] <;> decide

/-- C17 as stated fails in two ways with an output directory path of 1050 bytes:
a resource named `extracted.hc` is written to `output_dir/extracted.hc` while the
payload went to the first 1023 bytes of that path, so the payload file is not
overwritten; and two resources with the same 1000-byte name are both written to
the first 2047 bytes of `output_dir/<name>`, so the file at `output_dir/<name>`
holds nothing. -/
theorem last_writer_wins_counterexample :
    ((extract_package long_env (pack scenario_payload collision_resources) 0).exit = none ∧
      (extract_package long_env (pack scenario_payload collision_resources) 0).files =
        [(hc_path long_dir, scenario_payload), (long_dir ++ [47] ++ extracted_hc, [1, 2, 3])] ∧
      hc_path long_dir ≠ long_dir ++ [47] ++ extracted_hc ∧
      file_after id (extract_package long_env (pack scenario_payload collision_resources) 0).files
        (hc_path long_dir) = some scenario_payload) ∧
    ((extract_package long_env (pack scenario_payload long_twice_resources) 0).exit = none ∧
      (extract_package long_env (pack scenario_payload long_twice_resources) 0).files =
        [(hc_path long_dir, scenario_payload), (out_path long_dir long_tail_name, [1, 2]),
         (out_path long_dir long_tail_name, [3])] ∧
      file_after id (extract_package long_env (pack scenario_payload long_twice_resources) 0).files
        (long_dir ++ [47] ++ long_tail_name) = none) := by
  have hgood1 : ∀ r ∈ collision_resources, (0 : Byte) ∉ r.1 ∧ 1 ≤ r.1.length ∧
      r.1.length ≤ 1000 ∧ r.2.length < 2 ^ 32 := by decide
  have hp : out_path long_dir extracted_hc = long_dir ++ [47] ++ extracted_hc :=
    out_path_eq long_dir extracted_hc long_dir_no_nul (by decide)
      (by simp only [long_dir_length, extracted_hc, List.length_cons, List.length_nil]
          decide)
  have h1 : (hc_path long_dir).length ≤ 1023 := snprintf_path_length_le 1024 _ _
  have h2 : (out_path long_dir long_tail_name).length ≤ 2047 := snprintf_path_length_le 2048 _ _
  have hlen1 : (long_dir ++ [47] ++ extracted_hc).length = 1063 := by
    simp only [List.length_append, long_dir_length, extracted_hc, List.length_cons,
      List.length_nil]
  have hlen2 : (long_dir ++ [47] ++ long_tail_name).length = 2051 := by
    simp only [List.length_append, long_dir_length, long_tail_name_length, List.length_cons,
      List.length_nil]
  have hne : hc_path long_dir ≠ long_dir ++ [47] ++ extracted_hc := by
    intro h
    have := congrArg List.length h
    omega
  have hfiles1 : (extract_package long_env (pack scenario_payload collision_resources) 0).files =
      [(hc_path long_dir, scenario_payload), (long_dir ++ [47] ++ extracted_hc, [1, 2, 3])] := by
    rw [extract_pack_files long_env scenario_payload collision_resources (by decide)
      (by decide) hgood1 rfl (fun _ _ => rfl)]
    simp only [collision_resources, long_env, List.map_cons, List.map_nil, hp]
  have hfiles2 : (extract_package long_env (pack scenario_payload long_twice_resources) 0).files =
      [(hc_path long_dir, scenario_payload), (out_path long_dir long_tail_name, [1, 2]),
       (out_path long_dir long_tail_name, [3])] := by
    rw [extract_pack_files long_env scenario_payload long_twice_resources (by decide)
      (by decide) long_twice_resources_good rfl (fun _ _ => rfl)]
    simp only [long_twice_resources, long_env, List.map_cons, List.map_nil]
  have hexit1 := congrArg Run.exit (extract_pack_good long_env scenario_payload
    collision_resources (by decide) (by decide) hgood1 rfl)
  have hexit2 := congrArg Run.exit (extract_pack_good long_env scenario_payload
    long_twice_resources (by decide) (by decide) long_twice_resources_good rfl)
  refine ⟨⟨hexit1, hfiles1, hne, ?_⟩, ⟨hexit2, hfiles2, ?_⟩⟩
  · rw [hfiles1]
    exact file_after_last id [] [(long_dir ++ [47] ++ extracted_hc, [1, 2, 3])]
      (hc_path long_dir, scenario_payload)
      (by
        intro u hu
        simp only [List.mem_singleton] at hu
        subst hu
        exact fun h => hne h.symm)
  · rw [hfiles2]
    apply file_after_none
    intro w hw
    simp only [List.mem_cons, List.mem_singleton, List.mem_nil_iff, or_false] at hw
    intro hpath
    have hl := congrArg List.length hpath
    simp only [id] at hl
    rcases hw with hw | hw | hw <;> subst hw <;> simp only at hl <;> omega

/-! ## The packer as a program -/

theorem load_resources_none (env : PackEnv) (args : List Bytes)
    (h : ∃ a ∈ args, env.content (cstr a) = none) : load_resources env args = none := by
  induction args with
  | nil =>
    obtain ⟨a, ha, _⟩ := h
    cases ha
  | cons b rest ih =>
    obtain ⟨a, ha, hnone⟩ := h
    simp only [load_resources, read_file_at]
    cases hb : env.content (cstr b) with
    | none => rfl
    | some c =>
      simp only
      rcases List.mem_cons.1 ha with hab | hab
      · rw [hab, hb] at hnone
        cases hnone
      · rw [ih ⟨a, hab, hnone⟩]

/-- C15. Packer atomicity on unreadable input: when the primary-payload file or
any one of the resource files cannot be opened, the packer ends with status 1
and has never opened the output path for writing, so the output file is neither
created nor truncated nor partially written. -/
theorem packer_unreadable_input (env : PackEnv) (prog hc_file out_file : Bytes)
    (args : List Bytes)
    (h : env.content (cstr hc_file) = none ∨ ∃ a ∈ args, env.content (cstr a) = none) :
    (packager_main env (prog :: hc_file :: out_file :: args)).status = 1 ∧
    (packager_main env (prog :: hc_file :: out_file :: args)).output = none := by
  simp only [packager_main, read_file_at]
  cases hc : env.content (cstr hc_file) with
  | none => exact ⟨rfl, rfl⟩
  | some c =>
    simp only
    rcases h with h | h
    · rw [hc] at h
      cases h
    · rw [load_resources_none env args h]
      exact ⟨rfl, rfl⟩

/-- C15 on an invocation whose second resource file does not exist. -/
theorem packer_unreadable_input_witness :
    (∃ a ∈ ([[100, 47, 98], [120]] : List Bytes), scenario_pack_env.content (cstr a) = none) ∧
    (packager_main scenario_pack_env [[112], [97], [111], [100, 47, 98], [120]]).status = 1 ∧
    (packager_main scenario_pack_env [[112], [97], [111], [100, 47, 98], [120]]).output = none ∧
    (packager_main scenario_pack_env [[112], [97], [111], [100, 47, 98]]).status = 0 := by
  have hyp : ∃ a ∈ ([[100, 47, 98], [120]] : List Bytes),
      scenario_pack_env.content (cstr a) = none := ⟨[120], by decide, by decide⟩
  have h := packer_unreadable_input scenario_pack_env [112] [97] [111] [[100, 47, 98], [120]]
    (Or.inr hyp)
  exact ⟨hyp, h.1, h.2, by decide⟩

theorem take_takeWhile_length (p : Byte → Bool) (l : Bytes) :
    l.take (l.takeWhile p).length = l.takeWhile p := by
  induction l with
  | nil => rfl
  | cons a rest ih =>
    simp only [List.takeWhile_cons]
    cases p a with
    | true => simp only [if_true, List.length_cons, List.take_succ_cons, ih]
    | false => simp

theorem stored_eq_cstr (arg : Bytes × Bytes) (h : strlen arg.1 < 2 ^ 32) :
    stored arg = (cstr arg.1, read_file arg.2) := by
  have ht : arg.1.take (strlen arg.1) = cstr arg.1 := by
    simp only [strlen, cstr, take_takeWhile_length]
  rw [stored, Nat.mod_eq_of_lt h, ht]

theorem load_resources_eq (env : PackEnv) (args : List Bytes) :
    ∀ cs : List Bytes, args.map (fun a => env.content (cstr a)) = cs.map some →
      load_resources env args = some ((args.zip cs).map load_resource) := by
  induction args with
  | nil =>
    intro cs _
    rfl
  | cons a rest ih =>
    intro cs h
    cases cs with
    | nil => simp at h
    | cons c cs' =>
      simp only [List.map_cons, List.cons.injEq] at h
      simp only [load_resources, read_file_at, h.1, ih cs' h.2, List.zip_cons_cons,
        List.map_cons, load_resource]

/-- C18. Stored resource names are the input paths: when every input file can
be read and the output can be created, the packer writes to the output path the
container whose i-th record has as name the characters of the i-th resource
argument up to its first NUL, all of them, with `name_length` their number
(arguments being shorter than 2^32 characters), followed by the bytes read from
that file; the stored names are the arguments' characters in order, nothing of
a path being stripped, so a `/` in an argument is in the stored name. -/
theorem stored_names_are_arguments (env : PackEnv) (prog hc_file out_file P : Bytes)
    (args cs : List Bytes)
    (hhc : env.content (cstr hc_file) = some P)
    (hargs : args.map (fun a => env.content (cstr a)) = cs.map some)
    (hout : env.canCreate (cstr out_file) = true)
    (hlen : ∀ a ∈ args, strlen a < 2 ^ 32) :
    (packager_main env (prog :: hc_file :: out_file :: args)).status = 0 ∧
    (packager_main env (prog :: hc_file :: out_file :: args)).output =
      some (cstr out_file,
        MAGIC ++ le32 1 ++ le32 (read_file P).length ++ read_file P ++ le32 args.length ++
          layout_resources ((args.zip cs).map (fun ac => (cstr ac.1, read_file ac.2)))) ∧
    ((args.zip cs).map (fun ac => (cstr ac.1, read_file ac.2))).map Prod.fst =
      args.map cstr := by
  have hcount : (args.zip cs).length = args.length := by
    have h1 := congrArg List.length hargs
    simp only [List.length_map] at h1
    rw [List.length_zip, ← h1, Nat.min_self]
  have hstored : (args.zip cs).map stored =
      (args.zip cs).map (fun ac => (cstr ac.1, read_file ac.2)) := by
    apply List.map_congr_left
    intro ac hac
    exact stored_eq_cstr ac (hlen ac.1 (List.of_mem_zip hac).1)
  have hpack := pack_eq_layout_stored P (args.zip cs)
  rw [hstored, hcount] at hpack
  refine ⟨?_, ?_, ?_⟩
  · simp only [packager_main, read_file_at, hhc, load_resources_eq env args cs hargs, hout,
      if_true]
  · simp only [packager_main, read_file_at, hhc, load_resources_eq env args cs hargs, hout,
      if_true]
    have hp : write_package (read_file_size P) (read_file P) ((args.zip cs).map load_resource) =
        pack P (args.zip cs) := rfl
    rw [hp, hpack]
    simp only [List.append_assoc]
  · have hl : args.length ≤ cs.length := by
      have h1 := congrArg List.length hargs
      simp only [List.length_map] at h1
      omega
    have hfst : (args.zip cs).map Prod.fst = args := List.map_fst_zip args cs hl
    rw [List.map_map]
    have hcomp : (Prod.fst ∘ fun ac : Bytes × Bytes => (cstr ac.1, read_file ac.2)) =
        cstr ∘ Prod.fst := rfl
    rw [hcomp, ← List.map_map, hfst]

/-- C18 on an invocation with the resource argument `d/b`: the stored name is
`d/b`, slash included. -/
theorem stored_names_are_arguments_witness :
    scenario_pack_env.content (cstr [97]) = some scenario_payload ∧
    (∀ a ∈ ([[100, 47, 98]] : List Bytes), strlen a < 2 ^ 32) ∧
    (packager_main scenario_pack_env [[112], [97], [111], [100, 47, 98]]).output =
      some ([111],
        [72, 67, 80, 75, 1, 0, 0, 0, 12, 0, 0, 0,
         80, 82, 73, 78, 84, 40, 34, 72, 73, 34, 41, 59,
         1, 0, 0, 0, 3, 0, 0, 0, 100, 47, 98, 4, 0, 0, 0, 222, 173, 190, 239]) ∧
    (([([100, 47, 98], [222, 173, 190, 239])] : List (Bytes × Bytes)).map
      (fun ac => (cstr ac.1, read_file ac.2))).map Prod.fst = [[100, 47, 98]] := by
  have hlen : ∀ a ∈ ([[100, 47, 98]] : List Bytes), strlen a < 2 ^ 32 := by decide
  have h := stored_names_are_arguments scenario_pack_env [112] [97] [111] scenario_payload
    [[100, 47, 98]] [[222, 173, 190, 239]] rfl rfl rfl hlen
  exact ⟨rfl, hlen, h.2.1.trans (by decide), h.2.2.trans (by decide)⟩

/-! ## The allocation of `hc_buf` and its overrun -/

theorem read_u32_le_lt (me : Bytes) (pos v : Nat) (h : read_u32_le me pos = .ok v) :
    v < 2 ^ 32 := by
  unfold read_u32_le at h
  split at h
  · next b0 b1 b2 b3 _ =>
    cases h
    have h0 := b0.isLt
    have h1 := b1.isLt
    have h2 := b2.isLt
    have h3 := b3.isLt
    omega
  · cases h

theorem hc_alloc_size_some (me : Bytes) (off s : Nat) (h : hc_alloc_size me off = some s) :
    fread me off 4 = MAGIC ∧ (∃ v, read_u32_le me (off + 4) = .ok v) ∧
      read_u32_le me (off + 8) = .ok s := by
  unfold hc_alloc_size at h
  simp only at h
  split at h
  · cases h
  · split at h
    · cases h
    · next hm =>
      split at h
      · cases h
      · next v hv =>
        split at h
        · cases h
        · next s2 hs =>
          cases h
          exact ⟨not_not.1 hm, ⟨v, hv⟩, hs⟩

theorem hc_alloc_size_of_reads (me : Bytes) (off v s : Nat) (hm : fread me off 4 = MAGIC)
    (hv : read_u32_le me (off + 4) = .ok v) (hs : read_u32_le me (off + 8) = .ok s) :
    hc_alloc_size me off = some s := by
  unfold hc_alloc_size
  simp only [hm, hv, hs]
  rfl

/-- The buffers of a resource are large enough for every value of the length
fields the loop accepts: `name_len + 1` does not wrap below the cap of 1000, and
`fread` stores at most the `res_size` bytes asked for. -/
theorem resource_buffers_suffice (me : Bytes) (pos name_len res_size : Nat)
    (hcap : name_len ≤ 1000) :
    (fread me pos name_len).length + 1 ≤ name_capacity name_len ∧
      (fread me pos res_size).length ≤ res_buf_capacity res_size := by
  simp only [name_capacity, res_buf_capacity, fread_length]
  omega

/-- The stub writes outside `hc_buf` exactly when the payload length field is
`0xFFFFFFFF` and at least one byte follows it: `malloc` is then asked for 0
bytes and `fread` stores what it gets. -/
theorem hc_buf_overrun_iff (me : Bytes) (off : Nat) :
    hc_buf_overrun me off = true ↔
      hc_alloc_size me off = some (2 ^ 32 - 1) ∧ off + 12 < me.length := by
  unfold hc_buf_overrun
  cases hsz : hc_alloc_size me off with
  | none => simp
  | some s =>
    have hlt := read_u32_le_lt me (off + 8) s (hc_alloc_size_some me off s hsz).2.2
    simp only [hc_buf_capacity, fread_length, Bool.or_eq_true, Bool.and_eq_true,
      decide_eq_true_eq, Option.some.injEq]
    by_cases hmax : s = 2 ^ 32 - 1
    · subst hmax
      constructor
      · intro _
        refine ⟨rfl, ?_⟩
        omega
      · rintro ⟨_, h⟩
        left
        omega
    · have hmod : (s + 1) % 2 ^ 32 = s + 1 := Nat.mod_eq_of_lt (by omega)
      rw [hmod]
      constructor
      · intro h
        omega
      · rintro ⟨h, _⟩
        exact absurd h hmax

theorem extract_package_defined_none (env : Env) (me : Bytes) (off : Nat) :
    extract_package_defined env me off = none ↔ hc_buf_overrun me off = true := by
  unfold extract_package_defined
  cases hc_buf_overrun me off <;> simp

theorem extract_package_defined_of_no_overrun (env : Env) (me : Bytes) (off : Nat)
    (h : hc_buf_overrun me off = false) :
    extract_package_defined env me off = some (extract_package env me off) := by
  unfold extract_package_defined
  rw [h]
  rfl

theorem stub_main_defined_none (env : Env) (me : Bytes) :
    stub_main_defined env me = none ↔
      ∃ off, find_marker me = some off ∧ hc_buf_overrun me off = true := by
  unfold stub_main_defined
  cases find_marker me with
  | none => simp
  | some off => simp [extract_package_defined_none]

theorem stub_main_defined_of_no_overrun (env : Env) (me : Bytes)
    (h : ∀ off, find_marker me = some off → hc_buf_overrun me off = false) :
    stub_main_defined env me = some (stub_main env me) := by
  unfold stub_main_defined stub_main
  cases hf : find_marker me with
  | none => rfl
  | some off => exact extract_package_defined_of_no_overrun env me off (h off hf)
/-- At the whole stub an overrun of `hc_buf` is always a header-level failure
in the sense of a payload length field that declares more bytes than remain:
the marker lies in the last 64 KiB, so fewer than `0xFFFFFFFF` bytes follow the
field. -/
theorem stub_overrun_is_short_payload (me : Bytes) (off : Nat)
    (hoff : find_marker me = some off) (hover : hc_buf_overrun me off = true) :
    read_u32_le me (off + 8) = .ok (2 ^ 32 - 1) ∧ me.length < off + 12 + (2 ^ 32 - 1) := by
  obtain ⟨hsz, _⟩ := (hc_buf_overrun_iff me off).1 hover
  refine ⟨(hc_alloc_size_some me off _ hsz).2.2, ?_⟩
  obtain ⟨p, hp, ⟨hw, _⟩, _⟩ := (find_marker_some_iff me off).1 hoff
  omega

/-- Header-level failures on an input on which the stub does not write outside
`hc_buf`: when the marker scan finds no marker, or fewer than the twelve bytes of
magic, version and payload length follow the located offset, or the payload
length field declares more bytes than remain, the C program has a run, the run
ends in a fatal exit and it has written no file. -/
theorem header_failure_defined (env : Env) (me : Bytes)
    (h : find_marker me = none ∨
      ∃ off, find_marker me = some off ∧
        (me.length < off + 12 ∨
          ∃ hc_size, read_u32_le me (off + 8) = .ok hc_size ∧
            me.length < off + 12 + hc_size))
    (hno : ∀ off, find_marker me = some off → hc_buf_overrun me off = false) :
    ∃ r, stub_main_defined env me = some r ∧ r.exit ≠ none ∧ r.files = [] := by
  refine ⟨stub_main env me, stub_main_defined_of_no_overrun env me hno, ?_⟩
  rcases h with h | ⟨off, hoff, h⟩
  · simp only [stub_main, h]
    exact ⟨by simp [Run.fatal], rfl⟩
  · obtain ⟨e, c, hrun⟩ := extract_package_header_fails env me off h
    simp only [stub_main, hoff, hrun]
    exact ⟨by simp [Run.fatal], rfl⟩

theorem pack_payload_length_field (P : Bytes) (rs : List (Bytes × Bytes)) :
    read_u32_le (pack P rs) 8 = .ok (read_file_size P) := by
  have hv : (read_file P).length < 2 ^ 32 := by
    rw [read_file_length]; exact Nat.mod_lt _ (by decide)
  have h := read_u32_le_at (pack P rs) (MAGIC ++ le32 1)
    (read_file P ++ (le32 rs.length ++ layout_resources (rs.map stored))) 8
    (read_file P).length
    (by rw [pack_eq_layout_stored, List.append_assoc]) rfl hv
  rw [h, read_file_length, read_file_size]

theorem hc_alloc_size_layout (v : Nat) (B : Bytes) (hv : v < 2 ^ 32) :
    hc_alloc_size (MAGIC ++ (le32 1 ++ (le32 v ++ B))) 0 = some v := by
  apply hc_alloc_size_of_reads _ 0 1 v
  · rfl
  · exact read_u32_le_at _ MAGIC (le32 v ++ B) (0 + 4) 1 rfl rfl (by decide)
  · exact read_u32_le_at _ (MAGIC ++ le32 1) B (0 + 8) v (by rw [List.append_assoc]) rfl hv

theorem pack_take (P : Bytes) (rs : List (Bytes × Bytes)) (k : Nat) (hk : 12 ≤ k) :
    (pack P rs).take k =
      MAGIC ++ (le32 1 ++ (le32 (read_file_size P) ++
        (read_file P ++ (le32 rs.length ++ layout_resources (rs.map stored))).take (k - 12))) := by
  have hsplit : pack P rs = (MAGIC ++ le32 1 ++ le32 (read_file_size P)) ++
      (read_file P ++ (le32 rs.length ++ layout_resources (rs.map stored))) := by
    rw [pack_eq_layout_stored, read_file_length, read_file_size]
    simp only [List.append_assoc]
  have hl : (MAGIC ++ le32 1 ++ le32 (read_file_size P)).length = 12 := rfl
  rw [hsplit, List.take_append_eq_append_take, hl, List.take_of_length_le (by rw [hl]; exact hk)]
  simp only [List.append_assoc]

/-- Which cuts of a packer container make the stub write outside `hc_buf`: those
of a container whose payload length field is `0xFFFFFFFF`, cut anywhere after
the first byte of the payload. -/
theorem pack_cut_overrun_iff (P : Bytes) (rs : List (Bytes × Bytes)) (k : Nat)
    (hk : k < (pack P rs).length) :
    hc_buf_overrun ((pack P rs).take k) 0 = true ↔ read_file_size P = 2 ^ 32 - 1 ∧ 12 < k := by
  have hsl : ((pack P rs).take k).length = k := by
    rw [List.length_take]; omega
  rw [hc_buf_overrun_iff, hsl, Nat.zero_add]
  constructor
  · rintro ⟨hsz, h12⟩
    refine ⟨?_, h12⟩
    have hr := (hc_alloc_size_some _ 0 _ hsz).2.2
    have hr2 := read_u32_le_append ((pack P rs).take k) ((pack P rs).drop k) (0 + 8) _ hr
    rw [List.take_append_drop, Nat.zero_add, pack_payload_length_field] at hr2
    exact Except.ok.inj hr2
  · rintro ⟨hsz, h12⟩
    refine ⟨?_, h12⟩
    rw [pack_take P rs k (by omega), hsz]
    exact hc_alloc_size_layout _ _ (by decide)

/-- Truncation safety where the stub does not write outside `hc_buf`: for a
container written by the packer (for fewer than 2^32 resources) whose payload
length field is not `0xFFFFFFFF`, or one cut within its first twelve bytes, and
every `k` below its length, the C program has a run on the first `k` bytes, the
payload file being creatable; the run leaves the cursor at or before `k`, ends
either in success on the `suspicious name_len` stop or in a fatal
truncated-input exit, keeps only a payload and resources whose buffers have
exactly their declared lengths, and writes a prefix of the files, paths and
bytes alike, that extracting the whole container writes. -/
theorem truncation_safety_defined (env : Env) (P : Bytes) (rs : List (Bytes × Bytes))
    (k : Nat) (hcount : rs.length < 2 ^ 32)
    (hopen : env.canOpen (hc_path env.out_dir) = true) (hk : k < (pack P rs).length)
    (hwrap : read_file_size P ≠ 2 ^ 32 - 1 ∨ k ≤ 12) :
    ∃ r, extract_package_defined env ((pack P rs).take k) 0 = some r ∧
      r.cursor ≤ k ∧
      ((r.exit = none ∧ r.suspicious = true) ∨ ∃ e, r.exit = some e ∧ e.truncatedInput = true) ∧
      (∀ h, r.hc = some h → h.hc_buf.length = h.hc_size) ∧
      (∀ x ∈ r.resources, x.name.length = x.name_len ∧ x.res_buf.length = x.res_size) ∧
      (∀ f ∈ r.files, f ∈ (extract_package env (pack P rs) 0).files) ∧
      r.files <+: (extract_package env (pack P rs) 0).files := by
  have hno : hc_buf_overrun ((pack P rs).take k) 0 = false := by
    cases hov : hc_buf_overrun ((pack P rs).take k) 0 with
    | false => rfl
    | true =>
      have := (pack_cut_overrun_iff P rs k hk).1 hov
      omega
  refine ⟨_, extract_package_defined_of_no_overrun env _ 0 hno, ?_⟩
  have hsl : ((pack P rs).take k).length = k := by
    rw [List.length_take]; omega
  have hcur := extract_package_cursor_le env ((pack P rs).take k) 0 (Nat.zero_le _)
  rw [hsl] at hcur
  have hcut := extract_package_cut env ((pack P rs).take k) ((pack P rs).drop k) 0
  rw [List.take_append_drop] at hcut
  have hfull := extract_layout_total env (read_file P) (rs.map stored)
    (by rw [read_file_length]; exact Nat.mod_lt _ (by decide))
    (by rw [List.length_map]; exact hcount)
    (by
      intro r hr
      obtain ⟨a, _, rfl⟩ := List.mem_map.1 hr
      exact stored_lengths a)
    hopen (pack P rs)
    (by rw [List.length_map]; exact pack_eq_layout_stored P rs)
  have hlen := extract_package_lengths env ((pack P rs).take k) 0
  have hpre : (extract_package env ((pack P rs).take k) 0).files <+:
      (extract_package env (pack P rs) 0).files := by
    rcases hcut with h | ⟨_, h⟩
    · rw [h]
    · exact h
  refine ⟨hcur, ?_, hlen.1, hlen.2, fun f hf => hpre.subset hf, hpre⟩
  rcases hcut with h | ⟨h, _⟩
  · left
    rw [h] at hcur ⊢
    refine ⟨hfull.1, ?_⟩
    rcases hfull.2 with h2 | h2
    · exact h2
    · omega
  · exact Or.inr h
/-- Header-level failure without an overrun, on a stub image whose package
declares a payload of five bytes and holds two, and on the empty file. -/
theorem header_failure_defined_example :
    stub_main_defined scenario_env
      (MARKER ++ [72, 67, 80, 75, 1, 0, 0, 0, 5, 0, 0, 0, 65, 66]) =
      some (Run.fatal .readHcCode 23) ∧
    stub_main_defined scenario_env [] = some (Run.fatal .markerNotFound 0) := by
  exact ⟨by decide, by decide⟩

theorem overrun_image_alloc : hc_alloc_size overrun_image 12 = some (2 ^ 32 - 1) :=
  hc_alloc_size_of_reads overrun_image 12 1 (2 ^ 32 - 1) (by decide) rfl rfl

theorem overrun_image_marker : find_marker overrun_image = some 12 := by decide

/-- C8. A header-level failure on which the stub does not end in a fatal exit
with nothing written: in `overrun_image` the marker scan locates the package at
offset 12, its payload length field reads `0xFFFFFFFF` and so declares more bytes
than the 64 that remain, `malloc` is asked for `hc_buf_capacity 0xFFFFFFFF = 0`
bytes, `fread` stores the 64 remaining bytes outside that buffer before its
return value is tested, and the C program has no defined run. -/
theorem header_failure_overrun :
    find_marker overrun_image = some 12 ∧
    read_u32_le overrun_image (12 + 8) = .ok 4294967295 ∧
    overrun_image.length < 12 + 12 + 4294967295 ∧
    hc_buf_capacity 4294967295 = 0 ∧
    (fread overrun_image (12 + 12) 4294967295).length = 64 ∧
    hc_buf_overrun overrun_image 12 = true ∧
    stub_main_defined scenario_env overrun_image = none := by
  have hover : hc_buf_overrun overrun_image 12 = true :=
    (hc_buf_overrun_iff overrun_image 12).2 ⟨overrun_image_alloc, by decide⟩
  refine ⟨overrun_image_marker, rfl, by decide, by decide, ?_, hover, ?_⟩
  · rw [fread_length]
    decide
  · exact (stub_main_defined_none scenario_env overrun_image).2 ⟨12, overrun_image_marker, hover⟩
/-- Truncation without an overrun, on the container of `PRINT("HI");` with
`icon.bmp` cut after 30 of its 48 bytes. -/
theorem truncation_safety_defined_example :
    ∃ r, extract_package_defined scenario_env
        ((pack scenario_payload scenario_resources).take 30) 0 = some r ∧
      r.cursor ≤ 30 ∧
      ((r.exit = none ∧ r.suspicious = true) ∨
        ∃ e, r.exit = some e ∧ e.truncatedInput = true) ∧
      r.files <+: (extract_package scenario_env
        (pack scenario_payload scenario_resources) 0).files := by
  obtain ⟨r, hr, h⟩ := truncation_safety_defined scenario_env scenario_payload
    scenario_resources 30 (by decide) rfl (by decide) (Or.inl (by decide))
  exact ⟨r, hr, h.1, h.2.1, h.2.2.2.2.2⟩

theorem wrap_payload_length : wrap_payload.length = 2 ^ 32 - 1 := by
  rw [wrap_payload, List.length_replicate]

theorem wrap_payload_size : read_file_size wrap_payload = 2 ^ 32 - 1 := by
  rw [read_file_size, wrap_payload_length]
  decide

theorem pack_wrap_payload_take :
    (pack wrap_payload []).take 76 =
      MAGIC ++ le32 1 ++ [255, 255, 255, 255] ++ List.replicate 64 65 := by
  have hl : wrap_payload.length < 2 ^ 32 := by
    rw [wrap_payload_length]; decide
  have h64 : 64 ≤ wrap_payload.length := by
    rw [wrap_payload_length]; decide
  rw [pack_take wrap_payload [] 76 (by decide), wrap_payload_size, read_file_eq_self _ hl,
    List.take_append_of_le_length h64, wrap_payload, List.take_replicate,
    Nat.min_eq_left (by decide)]
  decide

theorem wrap_cut_marker_alloc :
    hc_alloc_size (MARKER ++ (MAGIC ++ le32 1 ++ [255, 255, 255, 255] ++ List.replicate 64 65)) 9 =
      some (2 ^ 32 - 1) :=
  hc_alloc_size_of_reads _ 9 1 (2 ^ 32 - 1) (by decide) rfl rfl

/-- C7. A truncation on which the stub is not safe: the packer's container for
the payload `wrap_payload` of `2^32 - 1` bytes and no resource, cut after 76 of
its bytes, is magic, version, the payload length field `FF FF FF FF` and 64
payload bytes; on it `malloc` is asked for `hc_buf_capacity 0xFFFFFFFF = 0`
bytes, `fread` stores the 64 bytes outside that buffer before its return value
is tested, and the C program has no defined run, neither from offset 0 nor as
a stub image with the cut container behind the marker. -/
theorem truncation_overrun :
    76 < (pack wrap_payload []).length ∧
    (pack wrap_payload []).take 76 =
      MAGIC ++ le32 1 ++ [255, 255, 255, 255] ++ List.replicate 64 65 ∧
    hc_buf_capacity (read_file_size wrap_payload) = 0 ∧
    (fread ((pack wrap_payload []).take 76) 12 (read_file_size wrap_payload)).length = 64 ∧
    hc_buf_overrun ((pack wrap_payload []).take 76) 0 = true ∧
    extract_package_defined scenario_env ((pack wrap_payload []).take 76) 0 = none ∧
    stub_main_defined scenario_env (MARKER ++ (pack wrap_payload []).take 76) = none := by
  have hlen : 76 < (pack wrap_payload []).length := by
    rw [pack_nil_length wrap_payload (by rw [wrap_payload_length]; decide), wrap_payload_length]
    decide
  have hover : hc_buf_overrun ((pack wrap_payload []).take 76) 0 = true :=
    (pack_cut_overrun_iff wrap_payload [] 76 hlen).2 ⟨wrap_payload_size, by decide⟩
  refine ⟨hlen, pack_wrap_payload_take, ?_, ?_, hover, ?_, ?_⟩
  · rw [wrap_payload_size]
    decide
  · rw [pack_wrap_payload_take, wrap_payload_size, fread_length]
    decide
  · exact (extract_package_defined_none scenario_env _ 0).2 hover
  · rw [pack_wrap_payload_take]
    exact (stub_main_defined_none scenario_env _).2
      ⟨9, by decide, (hc_buf_overrun_iff _ 9).2 ⟨wrap_cut_marker_alloc, by decide⟩⟩

end HolyPackager
